import Mathlib

/-!
# Verification of the `bfs_iddfs_benchmark` state-space search core

Shallow embedding of the generic search engine of the repository
`ondrejsvarc/bfs_iddfs_benchmark`:

* the abstract `state` contract (`state.h`): successor enumeration
  (`get_descendents`), goal test (`is_goal`) and a 64-bit identifier
  (`get_identifier`) — captured by the `Space` structure below;
* sequential and parallel BFS (`bfs_solver.cpp`);
* sequential and parallel IDDFS (`iddfs_solver.cpp`), with the process-wide
  globals `result` / `result_seq` / `best_goal_identifier` made explicit as
  threaded state;
* the SAT domain (`sat_generator.cpp`): partial assignments, clause
  evaluation and the 2-bit-per-variable identifier encoding;
* the `solver` base-class constructor (`solver.h`).

Machine integers (`unsigned long long`) are modelled as `Nat` with explicit
`% 2 ^ 64` where the C++ can overflow.  Mutable state is modelled by explicit
state passing; the OpenMP parallel loops are modelled by their sequential
(program-order) schedules, which for `bfs_solver::solve_par` and for
`iddfs_solver::solve_par` (whose worker `dfs_with_limit_p` spawns no tasks)
is the execution a single OpenMP thread performs.  Loops whose termination
is not structural take an explicit fuel argument; a `none` outcome of such a
function means "the fuel ran out before the loop finished".

The file is organised as definitions first, then theorems.
-/

/-! ## Definitions -/

/-- The abstract state contract of `state.h`: every domain state can
enumerate its successors, test goal membership, and produce an identifier.
A `Space` bundles the three virtual functions; an element of `σ` is a state. -/
structure Space (σ : Type) where
  ident : σ → Nat
  goal : σ → Bool
  children : σ → List σ

variable {σ : Type}

/-- `ReachN sp root n s`: state `s` is reachable from `root` by exactly `n`
`get_descendents` edges. -/
inductive ReachN (sp : Space σ) (root : σ) : Nat → σ → Prop
  | refl : ReachN sp root 0 root
  | step {n : Nat} {s t : σ} : ReachN sp root n s → t ∈ sp.children s →
      ReachN sp root (n + 1) t

/-- A state is reachable if it is reachable at some depth. -/
def Reachable (sp : Space σ) (root : σ) (s : σ) : Prop :=
  ∃ n, ReachN sp root n s

/-- Collision-freedom of identifiers on the reachable state space: the
correctness precondition the spec imposes on every domain implementation. -/
def InjOnReach (sp : Space σ) (root : σ) : Prop :=
  ∀ s t, Reachable sp root s → Reachable sp root t →
    sp.ident s = sp.ident t → s = t

/-- `Chain sp s l t`: `l` lists the successive states of a walk from `s`
to `t` (excluding `s`, including `t`); its length is the edge count. -/
inductive Chain (sp : Space σ) : σ → List σ → σ → Prop
  | nil {s : σ} : Chain sp s [] s
  | cons {s u t : σ} {l : List σ} : u ∈ sp.children s → Chain sp u l t →
      Chain sp s (u :: l) t

namespace bfs_solver

/-- Embedding of `bfs_solver::solve_seq` (bfs_solver.cpp): a FIFO queue of
states and a set of visited identifiers; dequeued states already visited are
skipped, otherwise marked visited and goal-tested, and their children are all
enqueued.  One fuel unit is spent per dequeue; `none` means the fuel ran out,
`some none` that the queue emptied with no goal (the C++ returns the
default-initialised null `state_pointer`), `some (some g)` that goal `g` was
dequeued first. -/
def solveSeqAux (sp : Space σ) : Nat → List σ → List Nat → Option (Option σ)
  | 0, _, _ => none
  | _ + 1, [], _ => some none
  | fuel + 1, c :: q, visited =>
      if sp.ident c ∈ visited then solveSeqAux sp fuel q visited
      else if sp.goal c then some (some c)
      else solveSeqAux sp fuel (q ++ sp.children c) (sp.ident c :: visited)

/-- `bfs_solver::solve_seq` applied to the stored root: queue starts as
`[root]`, visited set empty. -/
def solve_seq (sp : Space σ) (root : σ) (fuel : Nat) : Option (Option σ) :=
  solveSeqAux sp fuel [root] []

/-- Modelled from the spec: the breadth-first processing order determined by
children-enumeration order at each ancestor alone — states (not identifier
values) are deduplicated and goals do not stop the enumeration.  This is the
reference "enqueued first" order against which `solve_seq`'s tie-break is
stated. -/
def specOrder (sp : Space σ) [DecidableEq σ] : Nat → List σ → List σ → List σ
  | 0, _, _ => []
  | _ + 1, [], _ => []
  | fuel + 1, c :: q, vis =>
      if c ∈ vis then specOrder sp fuel q vis
      else c :: specOrder sp fuel (q ++ sp.children c) (c :: vis)

/-- One breadth-first level of `specOrder`: processes a pending list against
a visited list, returning (processed states, discovered children, updated
visited list). -/
def stepLevel (sp : Space σ) [DecidableEq σ] :
    List σ → List σ → List σ × List σ × List σ
  | [], vis => ([], [], vis)
  | c :: rest, vis =>
      if c ∈ vis then stepLevel sp rest vis
      else
        let r := stepLevel sp rest (c :: vis)
        (c :: r.1, sp.children c ++ r.2.1, r.2.2)

/-- The pending list and visited list at the start of breadth-first level
`k` of the enumeration from `root`. -/
def levelsVis (sp : Space σ) [DecidableEq σ] (root : σ) : Nat → List σ × List σ
  | 0 => ([root], [])
  | k + 1 =>
      let p := levelsVis sp root k
      let r := stepLevel sp p.1 p.2
      (r.2.1, r.2.2)

/-- States processed (first occurrence, in order) during level `k`. -/
def processedAt (sp : Space σ) [DecidableEq σ] (root : σ) (k : Nat) : List σ :=
  (stepLevel sp (levelsVis sp root k).1 (levelsVis sp root k).2).1

/-- Concatenation of the processed lists of levels `0 .. k-1`. -/
def procsTo (sp : Space σ) [DecidableEq σ] (root : σ) : Nat → List σ
  | 0 => []
  | k + 1 => procsTo sp root k ++ processedAt sp root k

/-- Total fuel consumed by the enumeration through levels `0 .. k-1`. -/
def fuelTo (sp : Space σ) [DecidableEq σ] (root : σ) : Nat → Nat
  | 0 => 0
  | k + 1 => fuelTo sp root k + (levelsVis sp root k).1.length

end bfs_solver

/-- The guard `result == nullptr || id < result->get_identifier()` shared by
the result updates of `bfs_solver::solve_par` and `dfs_with_limit_seq`. -/
def improves (sp : Space σ) (c : σ) : Option σ → Bool
  | none => true
  | some r => decide (sp.ident c < sp.ident r)

namespace bfs_solver

/-- The body of the `omp critical` region of `bfs_solver::solve_par` for one
discovered child `c`, acting on the shared state (next level, visited
identifiers, result): an unvisited child is goal-compared against the
current result, marked visited, and appended to the next level. -/
def parChild (sp : Space σ) (st : List σ × List Nat × Option σ) (c : σ) :
    List σ × List Nat × Option σ :=
  if sp.ident c ∈ st.2.1 then st
  else
    (st.1 ++ [c], sp.ident c :: st.2.1,
      if sp.goal c && improves sp c st.2.2 then some c else st.2.2)

/-- One round of `bfs_solver::solve_par`: every member of the current level
is expanded and each of its children is processed by `parChild`.  This is the
program-order schedule of the `omp parallel for`; the result update is a
minimum and the visited-set insertions commute, so the round is modelled by
its sequential execution. -/
def parRound (sp : Space σ) : List σ → List σ × List Nat × Option σ →
    List σ × List Nat × Option σ
  | [], st => st
  | s :: rest, st => parRound sp rest ((sp.children s).foldl (parChild sp) st)

/-- The round loop of `bfs_solver::solve_par`: stops when the next level is
empty or a result was recorded, and returns the result (`some none` = the
C++ returns `nullptr`).  Note the root itself is never goal-tested. -/
def solveParAux (sp : Space σ) : Nat → List σ → List Nat → Option σ →
    Option (Option σ)
  | 0, _, _, _ => none
  | f + 1, next, visited, res =>
      if next.isEmpty || res.isSome then some res
      else
        let st := parRound sp next ([], visited, res)
        solveParAux sp f st.1 st.2.1 st.2.2

/-- `bfs_solver::solve_par`: the root is pushed to the next level and marked
visited before the loop. -/
def solve_par (sp : Space σ) (root : σ) (fuel : Nat) : Option (Option σ) :=
  solveParAux sp fuel [root] [sp.ident root] none

end bfs_solver

namespace iddfs_solver

/-- Embedding of `dfs_with_limit_seq` (iddfs_solver.cpp): one depth-limited
DFS visit.  `rem` is `depth_limit - current_depth`, `visited` the caller's
path-visited set (the C++ passes it by value, so every recursive call owns a
copy and sibling calls all receive the parent's copy), `res` the global
`result_seq` threaded through the traversal.  A goal improving on `res` is
recorded and its subtree is not expanded; a goal that does not improve falls
through to expansion exactly as in the C++. -/
def dfs_with_limit_seq (sp : Space σ) : Nat → σ → List Nat → Option σ →
    Option σ
  | rem, s, visited, res =>
      if sp.goal s && improves sp s res then some s
      else
        match rem with
        | 0 => res
        | rem' + 1 =>
            (sp.children s).foldl
              (fun r c =>
                if sp.ident c ∈ sp.ident s :: visited then r
                else dfs_with_limit_seq sp rem' c (sp.ident s :: visited) r)
              res

/-- Instrumented copy of `dfs_with_limit_seq` that also returns the list of
states on which the function was invoked (each of which is goal-tested), in
visit order. -/
def dfs_with_limit_seq_trace (sp : Space σ) : Nat → σ → List Nat → Option σ →
    Option σ × List σ
  | rem, s, visited, res =>
      if sp.goal s && improves sp s res then (some s, [s])
      else
        match rem with
        | 0 => (res, [s])
        | rem' + 1 =>
            (sp.children s).foldl
              (fun acc c =>
                if sp.ident c ∈ sp.ident s :: visited then acc
                else
                  let r2 := dfs_with_limit_seq_trace sp rem' c
                    (sp.ident s :: visited) acc.1
                  (r2.1, acc.2 ++ r2.2))
              (res, [s])

/-- The outer `while (result_seq == nullptr)` loop of
`iddfs_solver::solve_seq`, with the process-global `result_seq` threaded
explicitly: each iteration increments `depth_limit` and runs one pass from
an empty path-visited set.  `none` means the fuel ran out (the loop is still
running). -/
def solveSeqLoop (sp : Space σ) (root : σ) : Nat → Nat → Option σ → Option σ
  | 0, _, _ => none
  | f + 1, dl, res =>
      match res with
      | some r => some r
      | none =>
          solveSeqLoop sp root f (dl + 1)
            (dfs_with_limit_seq sp (dl + 1) root [] none)

/-- `iddfs_solver::solve_seq` invoked while the global `result_seq` holds
`g0` (the value a previous call left behind; the constructor never resets
it). -/
def solve_seq_from (sp : Space σ) (root : σ) (g0 : Option σ) (fuel : Nat) :
    Option σ :=
  solveSeqLoop sp root fuel 0 g0

/-- `iddfs_solver::solve_seq` in a fresh process: `result_seq` is null. -/
def solve_seq (sp : Space σ) (root : σ) (fuel : Nat) : Option σ :=
  solve_seq_from sp root none fuel

/-- `ULLONG_MAX`, the initial value of the global
`best_goal_identifier`. -/
def ULLONG_MAX : Nat := 2 ^ 64 - 1

/-- Embedding of `dfs_with_limit_p` (iddfs_solver.cpp): the worker actually
reached from `iddfs_solver::solve_par` (it recurses only into itself and
spawns no tasks, so the `omp parallel`/`omp single` region executes it on a
single thread).  The path-visited set is passed *by reference* in the C++,
so it is threaded through the sibling calls and returned; `best` is the
global `best_goal_identifier` and `res` the global `result`.  A goal state
always returns (recorded only if its identifier beats `best`); a state whose
identifier is already in the shared set returns without erasing it. -/
def dfs_with_limit_p (sp : Space σ) : Nat → σ → List Nat → Nat → Option σ →
    List Nat × Nat × Option σ
  | rem, s, visited, best, res =>
      if sp.goal s then
        if sp.ident s < best then (visited, sp.ident s, some s)
        else (visited, best, res)
      else
        match rem with
        | 0 => (visited, best, res)
        | rem' + 1 =>
            if sp.ident s ∈ visited then (visited, best, res)
            else
              let r := (sp.children s).foldl
                (fun acc c => dfs_with_limit_p sp rem' c acc.1 acc.2.1 acc.2.2)
                (sp.ident s :: visited, best, res)
              (r.1.erase (sp.ident s), r.2.1, r.2.2)

/-- The outer loop of `iddfs_solver::solve_par`, with the globals
`best_goal_identifier` and `result` threaded: each iteration increments
`depth_limit`, allocates a fresh visited set, and runs one
`dfs_with_limit_p` pass. -/
def solveParLoop (sp : Space σ) (root : σ) : Nat → Nat → Nat → Option σ →
    Option σ
  | 0, _, _, _ => none
  | f + 1, dl, best, res =>
      match res with
      | some r => some r
      | none =>
          let r := dfs_with_limit_p sp (dl + 1) root [] best none
          solveParLoop sp root f (dl + 1) r.2.1 r.2.2

/-- `iddfs_solver::solve_par` in a fresh process: `result` is null and
`best_goal_identifier` is `ULLONG_MAX`. -/
def solve_par (sp : Space σ) (root : σ) (fuel : Nat) : Option σ :=
  solveParLoop sp root fuel 0 ULLONG_MAX none

/-- The child loop of `dfs_with_limit_seq` as a named function (it equals
the `foldl` in the body definitionally): each unvisited child is explored
with the parent's visited copy `v`, the result threading left to right. -/
def dfsKidsSeq (sp : Space σ) (rem : Nat) (cs : List σ) (v : List Nat)
    (res : Option σ) : Option σ :=
  cs.foldl
    (fun r c =>
      if sp.ident c ∈ v then r
      else dfs_with_limit_seq sp rem c v r)
    res

/-- The child loop of `dfs_with_limit_seq_trace` as a named function. -/
def traceKids (sp : Space σ) (rem : Nat) (cs : List σ) (v : List Nat)
    (acc : Option σ × List σ) : Option σ × List σ :=
  cs.foldl
    (fun acc c =>
      if sp.ident c ∈ v then acc
      else
        let r2 := dfs_with_limit_seq_trace sp rem c v acc.1
        (r2.1, acc.2 ++ r2.2))
    acc

/-- The child loop of `dfs_with_limit_p` as a named function: the shared
(by-reference) visited set, the best identifier and the result are all
threaded from one sibling to the next. -/
def dfsKidsP (sp : Space σ) (rem : Nat) (cs : List σ)
    (acc : List Nat × Nat × Option σ) : List Nat × Nat × Option σ :=
  cs.foldl
    (fun acc c => dfs_with_limit_p sp rem c acc.1 acc.2.1 acc.2.2)
    acc

end iddfs_solver

/-- The `sat_problem` struct of sat_generator.h: a literal is
`(variable_id, negated)`, a clause a list of literals. -/
structure SatProblem where
  num_variables : Nat
  num_clauses : Nat
  clauses : List (List (Nat × Bool))

namespace sat_state

/-- `assignment.find(i)` on the `std::map<int,bool>` modelled as an
association list. -/
def lookupA (a : List (Nat × Bool)) (i : Nat) : Option Bool :=
  (a.find? (fun e => e.1 == i)).map (fun e => e.2)

/-- One literal of one clause is satisfied by the partial assignment:
`(negated && !value) || (!negated && value)`, i.e. the assigned value
differs from the negation flag; an unassigned variable satisfies nothing. -/
def litSat (a : List (Nat × Bool)) (l : Nat × Bool) : Bool :=
  match lookupA a l.1 with
  | none => false
  | some v => v != l.2

/-- `sat_state::is_goal`: every clause has a satisfied literal and the
assignment is complete. -/
def is_goal (p : SatProblem) (a : List (Nat × Bool)) : Bool :=
  (p.clauses.all fun c => c.any fun l => litSat a l) &&
    (a.length == p.num_variables)

/-- The scan for `next_variable`: the smallest `i ∈ [1, num_variables]`
not yet assigned. -/
def nextVar (p : SatProblem) (a : List (Nat × Bool)) : Option Nat :=
  (List.range' 1 p.num_variables).find? (fun i => (lookupA a i).isNone)

/-- `sat_state::get_descendents`: a goal state (or a complete assignment)
has no children; otherwise the next unassigned variable is set to true and
to false, in that order. -/
def get_descendents (p : SatProblem) (a : List (Nat × Bool)) :
    List (List (Nat × Bool)) :=
  if is_goal p a then []
  else
    match nextVar p a with
    | none => []
    | some i => [a ++ [(i, true)], a ++ [(i, false)]]

/-- The 2-bit digit contributed by variable `i`: 0 unassigned, 1 false,
2 true. -/
def digitOf (a : List (Nat × Bool)) (i : Nat) : Nat :=
  match lookupA a i with
  | none => 0
  | some v => if v then 2 else 1

/-- `sat_state::get_identifier`: for `i = 1 .. num_variables` the
accumulator is shifted left two bits and the digit of variable `i` added;
both operations wrap modulo `2 ^ 64` on the C++ `unsigned long long`. -/
def get_identifier (p : SatProblem) (a : List (Nat × Bool)) : Nat :=
  (List.range' 1 p.num_variables).foldl
    (fun acc i => (acc * 4 % 2 ^ 64 + digitOf a i) % 2 ^ 64) 0

end sat_state

/-- The SAT domain as a `Space`: states are partial assignments. -/
def satSpace (p : SatProblem) : Space (List (Nat × Bool)) :=
  ⟨sat_state.get_identifier p, sat_state.is_goal p, sat_state.get_descendents p⟩

/-- The assignment that sets variables `k, k+1, ...` to the booleans of
`bs`, in order — the shape of every assignment reachable from the empty
root (specification-side device for the collision analysis). -/
def toAssign : Nat → List Bool → List (Nat × Bool)
  | _, [] => []
  | k, b :: bs => (k, b) :: toAssign (k + 1) bs

/-- Base-4 value of a most-significant-first digit list (no wrap-around):
the identifier `get_identifier` computes equals this modulo `2 ^ 64`. -/
def digitsVal (l : List Nat) : Nat :=
  l.foldl (fun a d => a * 4 + d) 0

/-- The `solver` base-class constructor (solver.h): a null initial state
raises `std::invalid_argument` and no object is produced; otherwise the
state is stored as the (const) member `root`. -/
def solver_ctor (s : Option σ) : Except String σ :=
  match s with
  | none => Except.error ("Initial state cannot be null.")
  | some st => Except.ok st

/-- The 4-state cycle A→B→C→D→A with no goal, states named 0..3
(testable property of spec section 8). -/
def cyc4 : Space Nat :=
  ⟨fun s => s, fun _ => false, fun s => [(s + 1) % 4]⟩

/-- A space whose root (state 0) is a goal and has no children. -/
def rootGoalSpace : Space Nat :=
  ⟨fun s => s, fun _ => true, fun _ => []⟩

/-- Instance I1: root 0 with single child 1, which is the goal. -/
def lineA : Space Nat :=
  ⟨fun s => s, fun s => s == 1, fun s => if s = 0 then [1] else []⟩

/-- Instance I2: root 0 with single child 2, which is the goal. -/
def lineB : Space Nat :=
  ⟨fun s => s, fun s => s == 2, fun s => if s = 0 then [2] else []⟩

/-- Two goals at depth 1, enumerated in the order 5 then 3, so that the
first-enqueued goal (5) is not the one with the least identifier (3). -/
def twoGoals : Space Nat :=
  ⟨fun s => s, fun s => s == 5 || s == 3, fun s => if s = 0 then [5, 3] else []⟩

/-- The line 0→1→2 whose only goal 2 is at depth 2. -/
def line2 : Space Nat :=
  ⟨fun s => s, fun s => s == 2,
    fun s => if s = 0 then [1] else if s = 1 then [2] else []⟩

/-- Diamond 0→{1,2}, 1→3, 2→3, 3→4, goal 4: the two branches 1 and 2 share
the intermediate state 3 (C6 interference instance). -/
def diamond : Space Nat :=
  ⟨fun s => s, fun s => s == 4,
    fun s =>
      if s = 0 then [1, 2]
      else if s = 1 then [3]
      else if s = 2 then [3]
      else if s = 3 then [4]
      else []⟩

/-- A space whose only goal — state 1, one edge below the root 0 — carries
the identifier `ULLONG_MAX`, the largest value an `unsigned long long`
identifier can take. -/
def maxIdSpace : Space Nat :=
  ⟨fun s => if s = 1 then iddfs_solver.ULLONG_MAX else s,
    fun s => s == 1,
    fun s => if s = 0 then [1] else []⟩

/-- The SAT instance with one variable and the clauses `{x1}` and `{¬x1}`
(unsatisfiable). -/
def satP1 : SatProblem := ⟨1, 2, [[(1, false)], [(1, true)]]⟩

/-- A SAT problem with 33 variables (identifier overflow instance); its
clause list is irrelevant to the identifier computation. -/
def satP33 : SatProblem := ⟨33, 0, []⟩

/-! ## Theorems -/

theorem Chain.append {sp : Space σ} {s m t : σ} {l1 l2 : List σ}
    (h1 : Chain sp s l1 m) (h2 : Chain sp m l2 t) :
    Chain sp s (l1 ++ l2) t := by
  induction h1 with
  | nil => simpa using h2
  | cons hu _ ih => exact Chain.cons hu (ih h2)

theorem Chain.reachN_of_base {sp : Space σ} {root s t : σ} {l : List σ}
    (h : Chain sp s l t) :
    ∀ n, ReachN sp root n s → ReachN sp root (n + l.length) t := by
  induction h with
  | nil => intro n hn; simpa using hn
  | @cons s u t l hu _ ih =>
      intro n hn
      have h2 := ih (n + 1) (ReachN.step hn hu)
      have he : n + (u :: l).length = n + 1 + l.length := by
        simp only [List.length_cons]; omega
      rw [he]; exact h2

theorem reachN_iff_chain {sp : Space σ} {root t : σ} {n : Nat} :
    ReachN sp root n t ↔ ∃ l, Chain sp root l t ∧ l.length = n := by
  constructor
  · intro h
    induction h with
    | refl => exact ⟨[], Chain.nil, rfl⟩
    | step _ hm ih =>
        obtain ⟨l, hl, hlen⟩ := ih
        exact ⟨l ++ [_], hl.append (Chain.cons hm Chain.nil), by simp [hlen]⟩
  · rintro ⟨l, hl, rfl⟩
    simpa using hl.reachN_of_base 0 ReachN.refl

theorem ReachN.prepend {sp : Space σ} {s c t : σ} {n : Nat}
    (hc : c ∈ sp.children s) (h : ReachN sp c n t) : ReachN sp s (n + 1) t := by
  induction h with
  | refl => exact ReachN.step ReachN.refl hc
  | step _ hm ih => exact ReachN.step ih hm

theorem Chain.mem_reachable {sp : Space σ} {root t : σ} {l : List σ}
    (h : Chain sp root l t) : ∀ x ∈ l, Reachable sp root x := by
  induction h with
  | nil => simp
  | cons hu hrest ih =>
      intro x hx
      rcases List.mem_cons.mp hx with rfl | hx
      · exact ⟨1, ReachN.step ReachN.refl hu⟩
      · rcases ih x hx with ⟨n, hn⟩
        exact ⟨n + 1, hn.prepend hu⟩

/-- Every nonempty set of naturals has a least element (classical form). -/
theorem nat_exists_least {P : Nat → Prop} (h : ∃ n, P n) :
    ∃ m, P m ∧ ∀ k, P k → m ≤ k := by
  classical
  exact ⟨Nat.find h, Nat.find_spec h, fun k hk => Nat.find_min' h hk⟩

theorem chain_split {sp : Space σ} :
    ∀ {l : List σ} {s t : σ}, Chain sp s l t → ∀ a ∈ l,
      ∃ l1 l2, l = l1 ++ a :: l2 ∧ Chain sp a l2 t := by
  intro l
  induction l with
  | nil => intro s t _ a ha; cases ha
  | cons u l' ih =>
      intro s t h a ha
      cases h with
      | cons hu hrest =>
          rcases List.mem_cons.mp ha with rfl | ha'
          · exact ⟨[], l', rfl, hrest⟩
          · obtain ⟨l1, l2, hl, hc⟩ := ih hrest a ha'
            exact ⟨u :: l1, l2, by simp [hl], hc⟩

theorem chain_shorten_tail {sp : Space σ} :
    ∀ (l : List σ) (s t : σ), Chain sp s l t → ¬ l.Nodup →
      ∃ l2, Chain sp s l2 t ∧ l2.length < l.length := by
  intro l
  induction l with
  | nil => intro s t _ hnd; exact absurd List.nodup_nil hnd
  | cons u l' ih =>
      intro s t h hnd
      cases h with
      | cons hu hrest =>
          by_cases hmem : u ∈ l'
          · obtain ⟨l1, l2, hl, hc⟩ := chain_split hrest u hmem
            refine ⟨u :: l2, Chain.cons hu hc, ?_⟩
            simp only [hl, List.length_cons, List.length_append]
            omega
          · have hnd' : ¬ l'.Nodup := by
              intro hn
              exact hnd (List.nodup_cons.mpr ⟨hmem, hn⟩)
            obtain ⟨l2, hc, hlt⟩ := ih u t hrest hnd'
            exact ⟨u :: l2, Chain.cons hu hc, by simpa using Nat.succ_lt_succ hlt⟩

/-- A chain whose vertex list `s :: l` repeats a state can be strictly
shortened; hence minimum-length chains visit pairwise distinct states. -/
theorem chain_shorten {sp : Space σ} {l : List σ} {s t : σ}
    (h : Chain sp s l t) (hnd : ¬ (s :: l).Nodup) :
    ∃ l2, Chain sp s l2 t ∧ l2.length < l.length := by
  by_cases hmem : s ∈ l
  · obtain ⟨l1, l2, hl, hc⟩ := chain_split h s hmem
    refine ⟨l2, hc, ?_⟩
    simp only [hl, List.length_append, List.length_cons]
    omega
  · have : ¬ l.Nodup := fun hn => hnd (List.nodup_cons.mpr ⟨hmem, hn⟩)
    exact chain_shorten_tail l s t h this

/-- A minimum-length chain between two states has pairwise distinct
vertices. -/
theorem chain_minimal_nodup {sp : Space σ} {l : List σ} {s t : σ}
    (h : Chain sp s l t)
    (hmin : ∀ l2, Chain sp s l2 t → l.length ≤ l2.length) :
    (s :: l).Nodup := by
  by_contra hnd
  obtain ⟨l2, hc, hlt⟩ := chain_shorten h hnd
  exact absurd (hmin l2 hc) (by omega)

theorem find?_append_of_none {α : Type} {p : α → Bool} :
    ∀ (l1 l2 : List α), List.find? p l1 = none →
      List.find? p (l1 ++ l2) = List.find? p l2 := by
  intro l1 l2
  induction l1 with
  | nil => intro; rfl
  | cons a l ih =>
      intro h
      by_cases ha : p a = true
      · rw [List.find?_cons_of_pos _ ha] at h; cases h
      · rw [List.find?_cons_of_neg _ ha] at h
        rw [List.cons_append, List.find?_cons_of_neg _ ha]
        exact ih h

namespace bfs_solver

variable {sp : Space σ} [DecidableEq σ]

theorem stepLevel_processed_subset :
    ∀ (pending vis : List σ), ∀ x ∈ (stepLevel sp pending vis).1, x ∈ pending := by
  intro pending
  induction pending with
  | nil => intro vis x hx; simp [stepLevel] at hx
  | cons c rest ih =>
      intro vis x hx
      by_cases hc : c ∈ vis
      · simp only [stepLevel, if_pos hc] at hx
        exact List.mem_cons_of_mem _ (ih vis x hx)
      · simp only [stepLevel, if_neg hc] at hx
        rcases List.mem_cons.mp hx with rfl | hx'
        · exact List.mem_cons_self _ _
        · exact List.mem_cons_of_mem _ (ih (c :: vis) x hx')

theorem stepLevel_kids_from :
    ∀ (pending vis : List σ), ∀ x ∈ (stepLevel sp pending vis).2.1,
      ∃ p ∈ pending, x ∈ sp.children p := by
  intro pending
  induction pending with
  | nil => intro vis x hx; simp [stepLevel] at hx
  | cons c rest ih =>
      intro vis x hx
      by_cases hc : c ∈ vis
      · simp only [stepLevel, if_pos hc] at hx
        obtain ⟨p, hp, hxp⟩ := ih vis x hx
        exact ⟨p, List.mem_cons_of_mem _ hp, hxp⟩
      · simp only [stepLevel, if_neg hc] at hx
        rcases List.mem_append.mp hx with hx' | hx'
        · exact ⟨c, List.mem_cons_self _ _, hx'⟩
        · obtain ⟨p, hp, hxp⟩ := ih (c :: vis) x hx'
          exact ⟨p, List.mem_cons_of_mem _ hp, hxp⟩

theorem stepLevel_vis_mem :
    ∀ (pending vis : List σ) (v : σ),
      v ∈ (stepLevel sp pending vis).2.2 ↔
        v ∈ vis ∨ v ∈ (stepLevel sp pending vis).1 := by
  intro pending
  induction pending with
  | nil => intro vis v; simp [stepLevel]
  | cons c rest ih =>
      intro vis v
      by_cases hc : c ∈ vis
      · simp only [stepLevel, if_pos hc]
        exact ih vis v
      · simp only [stepLevel, if_neg hc]
        rw [ih (c :: vis) v]
        constructor
        · rintro (hv | hv)
          · rcases List.mem_cons.mp hv with rfl | hv'
            · exact Or.inr (List.mem_cons_self _ _)
            · exact Or.inl hv'
          · exact Or.inr (List.mem_cons_of_mem _ hv)
        · rintro (hv | hv)
          · exact Or.inl (List.mem_cons_of_mem _ hv)
          · rcases List.mem_cons.mp hv with rfl | hv'
            · exact Or.inl (List.mem_cons_self _ _)
            · exact Or.inr hv'

theorem stepLevel_mem_processed :
    ∀ (pending vis : List σ) (p : σ), p ∈ pending → p ∉ vis →
      p ∈ (stepLevel sp pending vis).1 := by
  intro pending
  induction pending with
  | nil => intro vis p hp; cases hp
  | cons c rest ih =>
      intro vis p hp hnv
      by_cases hc : c ∈ vis
      · have hpc : p ≠ c := fun h => hnv (h ▸ hc)
        have hp' : p ∈ rest := by
          rcases List.mem_cons.mp hp with rfl | h
          · exact absurd rfl hpc
          · exact h
        simp only [stepLevel, if_pos hc]
        exact ih vis p hp' hnv
      · simp only [stepLevel, if_neg hc]
        by_cases hpc : p = c
        · exact hpc ▸ List.mem_cons_self _ _
        · have hp' : p ∈ rest := by
            rcases List.mem_cons.mp hp with rfl | h
            · exact absurd rfl hpc
            · exact h
          have hnv' : p ∉ c :: vis := by
            intro h
            rcases List.mem_cons.mp h with rfl | h'
            · exact hpc rfl
            · exact hnv h'
          exact List.mem_cons_of_mem _ (ih (c :: vis) p hp' hnv')

theorem stepLevel_children_sub :
    ∀ (pending vis : List σ) (p : σ), p ∈ pending → p ∉ vis →
      ∀ x ∈ sp.children p, x ∈ (stepLevel sp pending vis).2.1 := by
  intro pending
  induction pending with
  | nil => intro vis p hp; cases hp
  | cons c rest ih =>
      intro vis p hp hnv x hx
      by_cases hc : c ∈ vis
      · have hpc : p ≠ c := fun h => hnv (h ▸ hc)
        have hp' : p ∈ rest := by
          rcases List.mem_cons.mp hp with rfl | h
          · exact absurd rfl hpc
          · exact h
        simp only [stepLevel, if_pos hc]
        exact ih vis p hp' hnv x hx
      · simp only [stepLevel, if_neg hc]
        by_cases hpc : p = c
        · subst hpc
          exact List.mem_append.mpr (Or.inl hx)
        · have hp' : p ∈ rest := by
            rcases List.mem_cons.mp hp with rfl | h
            · exact absurd rfl hpc
            · exact h
          have hnv' : p ∉ c :: vis := by
            intro h
            rcases List.mem_cons.mp h with rfl | h'
            · exact hpc rfl
            · exact hnv h'
          exact List.mem_append.mpr (Or.inr (ih (c :: vis) p hp' hnv' x hx))

theorem specOrder_level (f : Nat) :
    ∀ (pending acc vis : List σ),
      specOrder sp (f + pending.length) (pending ++ acc) vis =
        (stepLevel sp pending vis).1 ++
          specOrder sp f (acc ++ (stepLevel sp pending vis).2.1)
            (stepLevel sp pending vis).2.2 := by
  intro pending
  induction pending with
  | nil => intro acc vis; simp [stepLevel]
  | cons c rest ih =>
      intro acc vis
      have hlen : f + (c :: rest).length = (f + rest.length) + 1 := by
        simp only [List.length_cons]; omega
      rw [hlen, List.cons_append]
      by_cases hc : c ∈ vis
      · simp only [specOrder, if_pos hc, stepLevel]
        exact ih acc vis
      · simp only [specOrder, if_neg hc, stepLevel]
        have hassoc : (rest ++ acc) ++ sp.children c =
            rest ++ (acc ++ sp.children c) := by
          simp [List.append_assoc]
        rw [hassoc, ih (acc ++ sp.children c) (c :: vis)]
        simp [List.append_assoc]

theorem specOrder_levels (root : σ) :
    ∀ (k f : Nat),
      specOrder sp (fuelTo sp root k + f) [root] [] =
        procsTo sp root k ++
          specOrder sp f (levelsVis sp root k).1 (levelsVis sp root k).2 := by
  intro k
  induction k with
  | zero => intro f; simp [fuelTo, procsTo, levelsVis]
  | succ k ih =>
      intro f
      have he : fuelTo sp root (k + 1) + f =
          fuelTo sp root k + (f + (levelsVis sp root k).1.length) := by
        simp only [fuelTo]; omega
      rw [he, ih (f + (levelsVis sp root k).1.length)]
      have hstep := @specOrder_level σ sp _ f (levelsVis sp root k).1 []
        (levelsVis sp root k).2
      simp only [List.append_nil, List.nil_append] at hstep
      rw [hstep]
      have h1 : (levelsVis sp root (k + 1)).1 =
          (stepLevel sp (levelsVis sp root k).1 (levelsVis sp root k).2).2.1 := by
        simp [levelsVis]
      have h2 : (levelsVis sp root (k + 1)).2 =
          (stepLevel sp (levelsVis sp root k).1 (levelsVis sp root k).2).2.2 := by
        simp [levelsVis]
      rw [h1, h2]
      simp [procsTo, processedAt, List.append_assoc]

theorem levels_reachN (root : σ) :
    ∀ k, ∀ s ∈ (levelsVis sp root k).1, ReachN sp root k s := by
  intro k
  induction k with
  | zero =>
      intro s hs
      have : s = root := by simpa [levelsVis] using hs
      exact this ▸ ReachN.refl
  | succ k ih =>
      intro s hs
      have hs' : s ∈ (stepLevel sp (levelsVis sp root k).1
          (levelsVis sp root k).2).2.1 := by
        simpa [levelsVis] using hs
      obtain ⟨p, hp, hsp⟩ := stepLevel_kids_from _ _ s hs'
      exact ReachN.step (ih p hp) hsp

theorem levels_vis_reachN (root : σ) :
    ∀ k, ∀ v ∈ (levelsVis sp root k).2, ∃ j, j < k ∧ ReachN sp root j v := by
  intro k
  induction k with
  | zero => intro v hv; simp [levelsVis] at hv
  | succ k ih =>
      intro v hv
      have hv' : v ∈ (stepLevel sp (levelsVis sp root k).1
          (levelsVis sp root k).2).2.2 := by
        simpa [levelsVis] using hv
      rcases (stepLevel_vis_mem _ _ v).mp hv' with h | h
      · obtain ⟨j, hj, hr⟩ := ih v h
        exact ⟨j, Nat.lt_succ_of_lt hj, hr⟩
      · exact ⟨k, Nat.lt_succ_self k,
          levels_reachN root k v (stepLevel_processed_subset _ _ v h)⟩

theorem levels_complete (root : σ) :
    ∀ k s, ReachN sp root k s → (∀ j, ReachN sp root j s → k ≤ j) →
      s ∈ (levelsVis sp root k).1 := by
  intro k
  induction k with
  | zero =>
      intro s h _
      cases h with
      | refl => simp [levelsVis]
  | succ k ih =>
      intro s h hmin
      cases h with
      | @step n p t hp hc =>
          have hpmin : ∀ j, ReachN sp root j p → k ≤ j := by
            intro j hj
            have := hmin (j + 1) (ReachN.step hj hc)
            omega
          have hplv : p ∈ (levelsVis sp root k).1 := ih p hp hpmin
          have hpnv : p ∉ (levelsVis sp root k).2 := by
            intro hv
            obtain ⟨j, hj, hr⟩ := levels_vis_reachN root k p hv
            exact absurd (hpmin j hr) (by omega)
          have := stepLevel_children_sub _ _ p hplv hpnv s hc
          simpa [levelsVis] using this

theorem solveSeqAux_of_find (root : σ) (hinj : InjOnReach sp root) :
    ∀ (fuel : Nat) (q vis : List σ) (g : σ),
      (∀ x ∈ q, Reachable sp root x) → (∀ x ∈ vis, Reachable sp root x) →
      List.find? (fun s => sp.goal s) (specOrder sp fuel q vis) = some g →
      solveSeqAux sp fuel q (vis.map sp.ident) = some (some g) := by
  intro fuel
  induction fuel with
  | zero => intro q vis g _ _ hf; simp [specOrder] at hf
  | succ f ih =>
      intro q vis g hq hv hf
      cases q with
      | nil => simp [specOrder] at hf
      | cons c q' =>
          by_cases hc : c ∈ vis
          · rw [specOrder, if_pos hc] at hf
            have hcid : sp.ident c ∈ vis.map sp.ident :=
              List.mem_map_of_mem _ hc
            rw [solveSeqAux, if_pos hcid]
            exact ih q' vis g (fun x hx => hq x (List.mem_cons_of_mem _ hx)) hv hf
          · have hcid : sp.ident c ∉ vis.map sp.ident := by
              intro hmem
              obtain ⟨v, hv', he⟩ := List.mem_map.mp hmem
              have : v = c := hinj v c (hv v hv') (hq c (List.mem_cons_self _ _)) he
              exact hc (this ▸ hv')
            rw [specOrder, if_neg hc] at hf
            by_cases hg : sp.goal c = true
            · rw [List.find?_cons_of_pos _ (by simpa using hg)] at hf
              have : c = g := by simpa using hf
              subst this
              rw [solveSeqAux, if_neg hcid, if_pos hg]
            · rw [List.find?_cons_of_neg _ (by simpa using hg)] at hf
              rw [solveSeqAux, if_neg hcid, if_neg hg]
              have hmap : sp.ident c :: vis.map sp.ident =
                  (c :: vis).map sp.ident := by simp
              rw [hmap]
              refine ih (q' ++ sp.children c) (c :: vis) g ?_ ?_ hf
              · intro x hx
                rcases List.mem_append.mp hx with hx' | hx'
                · exact hq x (List.mem_cons_of_mem _ hx')
                · obtain ⟨n, hn⟩ := hq c (List.mem_cons_self _ _)
                  exact ⟨n + 1, ReachN.step hn hx'⟩
              · intro x hx
                rcases List.mem_cons.mp hx with rfl | hx'
                · exact hq x (List.mem_cons_self _ _)
                · exact hv x hx'

theorem procsTo_no_goal (root : σ) {m : Nat}
    (hm : ∀ k, (∃ t, ReachN sp root k t ∧ sp.goal t = true) → m ≤ k) :
    ∀ k, k ≤ m → ∀ x ∈ procsTo sp root k, sp.goal x = false := by
  intro k
  induction k with
  | zero => intro _ x hx; simp [procsTo] at hx
  | succ k ih =>
      intro hk x hx
      rcases List.mem_append.mp (by simpa [procsTo] using hx) with hx' | hx'
      · exact ih (by omega) x hx'
      · have hr : ReachN sp root k x :=
          levels_reachN root k x (stepLevel_processed_subset _ _ x hx')
        by_cases hg : sp.goal x = true
        · exact absurd (hm k ⟨x, hr, hg⟩) (by omega)
        · simpa using hg

end bfs_solver

namespace bfs_solver

/-- C1: on any instance with collision-free identifiers and at least one
reachable goal (in particular on any such instance with a finite reachable
state space), `bfs_solver::solve_seq` terminates and returns a goal `g`
whose edge-distance `m` from the root is both `g`'s own least depth and the
least depth of any reachable goal; moreover `g` is the first goal of the
identifier-free level-order enumeration `specOrder` determined solely by
children-enumeration order at each ancestor — the first-enqueued
minimum-depth goal, not the one with the least identifier. -/
theorem solve_seq_min_depth_first_enqueued (sp : Space σ) [DecidableEq σ]
    (root : σ) (hinj : InjOnReach sp root)
    (hgoal : ∃ n t, ReachN sp root n t ∧ sp.goal t = true) :
    ∃ fuel g m,
      solve_seq sp root fuel = some (some g) ∧
      sp.goal g = true ∧
      ReachN sp root m g ∧
      (∀ n, ReachN sp root n g → m ≤ n) ∧
      (∀ n t, ReachN sp root n t → sp.goal t = true → m ≤ n) ∧
      List.find? (fun s => sp.goal s) (specOrder sp fuel [root] []) = some g := by
  have hex : ∃ n, ∃ t, ReachN sp root n t ∧ sp.goal t = true := by
    obtain ⟨n, t, h1, h2⟩ := hgoal
    exact ⟨n, t, h1, h2⟩
  obtain ⟨m, ⟨t0, ht0r, ht0g⟩, hm⟩ := nat_exists_least hex
  have ht0min : ∀ j, ReachN sp root j t0 → m ≤ j :=
    fun j hj => hm j ⟨t0, hj, ht0g⟩
  have ht0lv : t0 ∈ (levelsVis sp root m).1 := levels_complete root m t0 ht0r ht0min
  have ht0nv : t0 ∉ (levelsVis sp root m).2 := by
    intro hv
    obtain ⟨j, hj, hr⟩ := levels_vis_reachN root m t0 hv
    exact absurd (ht0min j hr) (by omega)
  have ht0p : t0 ∈ processedAt sp root m :=
    stepLevel_mem_processed _ _ t0 ht0lv ht0nv
  have hsome : (List.find? (fun s => sp.goal s) (processedAt sp root m)).isSome := by
    rw [List.find?_isSome]
    exact ⟨t0, ht0p, by simpa using ht0g⟩
  obtain ⟨g, hgfind⟩ := Option.isSome_iff_exists.mp hsome
  have hgg : sp.goal g = true := by simpa using List.find?_some hgfind
  have hgp : g ∈ processedAt sp root m := List.mem_of_find?_eq_some hgfind
  have hgr : ReachN sp root m g :=
    levels_reachN root m g (stepLevel_processed_subset _ _ g hgp)
  have hnone : List.find? (fun s => sp.goal s) (procsTo sp root m) = none := by
    rw [List.find?_eq_none]
    intro x hx
    have := procsTo_no_goal root hm m le_rfl x hx
    simp [this]
  have hfind : List.find? (fun s => sp.goal s)
      (specOrder sp (fuelTo sp root (m + 1)) [root] []) = some g := by
    have hlv := @specOrder_levels σ sp _ root (m + 1) 0
    rw [Nat.add_zero] at hlv
    rw [hlv]
    have h0 : specOrder sp 0 (levelsVis sp root (m + 1)).1
        (levelsVis sp root (m + 1)).2 = [] := rfl
    rw [h0, List.append_nil]
    show List.find? _ (procsTo sp root m ++ processedAt sp root m) = some g
    rw [find?_append_of_none _ _ hnone]
    exact hgfind
  refine ⟨fuelTo sp root (m + 1), g, m, ?_, hgg, hgr,
    fun n hn => hm n ⟨g, hn, hgg⟩,
    fun n t hr hgt => hm n ⟨t, hr, hgt⟩, hfind⟩
  have happ := solveSeqAux_of_find root hinj (fuelTo sp root (m + 1)) [root] [] g
    (by
      intro x hx
      have : x = root := by simpa using hx
      exact ⟨0, this ▸ ReachN.refl⟩)
    (by intro x hx; cases hx)
    hfind
  simpa [solve_seq] using happ

/-- Witness for C1 at the two-goal instance `twoGoals` (goals 5 and 3 at
depth 1, enumerated 5 first): the hypotheses are satisfiable and the
returned goal is the first-enqueued one. -/
theorem solve_seq_min_depth_first_enqueued_witness :
    (InjOnReach twoGoals 0 ∧
      (∃ n t, ReachN twoGoals 0 n t ∧ twoGoals.goal t = true)) ∧
    (∃ fuel g m,
      solve_seq twoGoals 0 fuel = some (some g) ∧
      twoGoals.goal g = true ∧
      ReachN twoGoals 0 m g ∧
      (∀ n, ReachN twoGoals 0 n g → m ≤ n) ∧
      (∀ n t, ReachN twoGoals 0 n t → twoGoals.goal t = true → m ≤ n) ∧
      List.find? (fun s => twoGoals.goal s)
        (specOrder twoGoals fuel [0] []) = some g) ∧
    solve_seq twoGoals 0 10 = some (some 5) := by
  have hinj : InjOnReach twoGoals 0 := fun s t _ _ h => h
  have hgoal : ∃ n t, ReachN twoGoals 0 n t ∧ twoGoals.goal t = true :=
    ⟨1, 5, ReachN.step ReachN.refl (by simp [twoGoals]), by simp [twoGoals]⟩
  exact ⟨⟨hinj, hgoal⟩,
    solve_seq_min_depth_first_enqueued twoGoals 0 hinj hgoal, by decide⟩

end bfs_solver

namespace iddfs_solver

variable {sp : Space σ}

theorem dfs_seq_zero (s : σ) (v : List Nat) (res : Option σ) :
    dfs_with_limit_seq sp 0 s v res =
      if sp.goal s && improves sp s res then some s else res := by
  rw [dfs_with_limit_seq]

theorem dfs_seq_succ (rem : Nat) (s : σ) (v : List Nat) (res : Option σ) :
    dfs_with_limit_seq sp (rem + 1) s v res =
      if sp.goal s && improves sp s res then some s
      else dfsKidsSeq sp rem (sp.children s) (sp.ident s :: v) res := by
  rw [dfs_with_limit_seq]; rfl

theorem dfsKidsSeq_nil (rem : Nat) (v : List Nat) (res : Option σ) :
    dfsKidsSeq sp rem [] v res = res := rfl

theorem dfsKidsSeq_cons (rem : Nat) (c : σ) (cs : List σ) (v : List Nat)
    (res : Option σ) :
    dfsKidsSeq sp rem (c :: cs) v res =
      dfsKidsSeq sp rem cs v
        (if sp.ident c ∈ v then res else dfs_with_limit_seq sp rem c v res) := by
  simp only [dfsKidsSeq, List.foldl_cons]

theorem dfsKidsSeq_append (rem : Nat) (cs1 cs2 : List σ) (v : List Nat)
    (res : Option σ) :
    dfsKidsSeq sp rem (cs1 ++ cs2) v res =
      dfsKidsSeq sp rem cs2 v (dfsKidsSeq sp rem cs1 v res) := by
  simp [dfsKidsSeq, List.foldl_append]

theorem trace_zero (s : σ) (v : List Nat) (res : Option σ) :
    dfs_with_limit_seq_trace sp 0 s v res =
      if sp.goal s && improves sp s res then (some s, [s]) else (res, [s]) := by
  rw [dfs_with_limit_seq_trace]

theorem trace_succ (rem : Nat) (s : σ) (v : List Nat) (res : Option σ) :
    dfs_with_limit_seq_trace sp (rem + 1) s v res =
      if sp.goal s && improves sp s res then (some s, [s])
      else traceKids sp rem (sp.children s) (sp.ident s :: v) (res, [s]) := by
  rw [dfs_with_limit_seq_trace]; rfl

theorem traceKids_nil (rem : Nat) (v : List Nat) (acc : Option σ × List σ) :
    traceKids sp rem [] v acc = acc := rfl

theorem traceKids_cons (rem : Nat) (c : σ) (cs : List σ) (v : List Nat)
    (acc : Option σ × List σ) :
    traceKids sp rem (c :: cs) v acc =
      traceKids sp rem cs v
        (if sp.ident c ∈ v then acc
         else
           ((dfs_with_limit_seq_trace sp rem c v acc.1).1,
             acc.2 ++ (dfs_with_limit_seq_trace sp rem c v acc.1).2)) := by
  simp only [traceKids, List.foldl_cons]

theorem dfs_p_goal (rem : Nat) (s : σ) (v : List Nat) (best : Nat)
    (res : Option σ) (hg : sp.goal s = true) :
    dfs_with_limit_p sp rem s v best res =
      if sp.ident s < best then (v, sp.ident s, some s) else (v, best, res) := by
  cases rem <;> rw [dfs_with_limit_p] <;> simp [hg]

theorem dfs_p_zero (s : σ) (v : List Nat) (best : Nat) (res : Option σ)
    (hg : sp.goal s = false) :
    dfs_with_limit_p sp 0 s v best res = (v, best, res) := by
  rw [dfs_with_limit_p]; simp [hg]

theorem dfs_p_succ (rem : Nat) (s : σ) (v : List Nat) (best : Nat)
    (res : Option σ) (hg : sp.goal s = false) :
    dfs_with_limit_p sp (rem + 1) s v best res =
      if sp.ident s ∈ v then (v, best, res)
      else
        ((dfsKidsP sp rem (sp.children s) (sp.ident s :: v, best, res)).1.erase
            (sp.ident s),
          (dfsKidsP sp rem (sp.children s) (sp.ident s :: v, best, res)).2.1,
          (dfsKidsP sp rem (sp.children s) (sp.ident s :: v, best, res)).2.2) := by
  rw [dfs_with_limit_p]; simp [hg]; rfl

theorem dfsKidsP_nil (rem : Nat) (acc : List Nat × Nat × Option σ) :
    dfsKidsP sp rem [] acc = acc := rfl

theorem dfsKidsP_cons (rem : Nat) (c : σ) (cs : List σ)
    (acc : List Nat × Nat × Option σ) :
    dfsKidsP sp rem (c :: cs) acc =
      dfsKidsP sp rem cs (dfs_with_limit_p sp rem c acc.1 acc.2.1 acc.2.2) := rfl

theorem dfsKidsP_append (rem : Nat) (cs1 cs2 : List σ)
    (acc : List Nat × Nat × Option σ) :
    dfsKidsP sp rem (cs1 ++ cs2) acc =
      dfsKidsP sp rem cs2 (dfsKidsP sp rem cs1 acc) := by
  simp [dfsKidsP, List.foldl_append]

end iddfs_solver

namespace iddfs_solver

theorem dfs_seq_no_goal (sp : Space σ) (hng : ∀ s, sp.goal s = false) :
    ∀ (rem : Nat) (s : σ) (v : List Nat) (res : Option σ),
      dfs_with_limit_seq sp rem s v res = res := by
  intro rem
  induction rem with
  | zero =>
      intro s v res
      rw [dfs_seq_zero, hng]
      simp
  | succ rem' ih =>
      intro s v res
      rw [dfs_seq_succ, hng]
      simp only [Bool.false_and, if_neg (Bool.false_ne_true)]
      have hk : ∀ (cs : List σ) (r : Option σ),
          dfsKidsSeq sp rem' cs (sp.ident s :: v) r = r := by
        intro cs
        induction cs with
        | nil => intro r; rfl
        | cons c cs' ihc =>
            intro r
            rw [dfsKidsSeq_cons]
            by_cases h : sp.ident c ∈ sp.ident s :: v
            · rw [if_pos h]; exact ihc r
            · rw [if_neg h, ih]; exact ihc r
      exact hk (sp.children s) res

theorem dfs_p_no_goal (sp : Space σ) (hng : ∀ s, sp.goal s = false) :
    ∀ (rem : Nat) (s : σ) (v : List Nat) (best : Nat) (res : Option σ),
      (dfs_with_limit_p sp rem s v best res).2 = (best, res) := by
  intro rem
  induction rem with
  | zero =>
      intro s v best res
      rw [dfs_p_zero _ _ _ _ (hng s)]
  | succ rem' ih =>
      intro s v best res
      rw [dfs_p_succ _ _ _ _ _ (hng s)]
      by_cases h : sp.ident s ∈ v
      · rw [if_pos h]
      · rw [if_neg h]
        have hk : ∀ (cs : List σ) (acc : List Nat × Nat × Option σ),
            (dfsKidsP sp rem' cs acc).2 = acc.2 := by
          intro cs
          induction cs with
          | nil => intro acc; rfl
          | cons c cs' ihc =>
              intro acc
              rw [dfsKidsP_cons, ihc, ih]
        simp [hk]

theorem solveSeqLoop_no_goal (sp : Space σ) (root : σ)
    (hng : ∀ s, sp.goal s = false) :
    ∀ (fuel dl : Nat), solveSeqLoop sp root fuel dl none = none := by
  intro fuel
  induction fuel with
  | zero => intro dl; rfl
  | succ f ih =>
      intro dl
      rw [solveSeqLoop, dfs_seq_no_goal sp hng]
      exact ih (dl + 1)

theorem solveParLoop_no_goal (sp : Space σ) (root : σ)
    (hng : ∀ s, sp.goal s = false) :
    ∀ (fuel dl best : Nat), solveParLoop sp root fuel dl best none = none := by
  intro fuel
  induction fuel with
  | zero => intro dl best; rfl
  | succ f ih =>
      intro dl best
      rw [solveParLoop]
      have h2 := dfs_p_no_goal sp hng (dl + 1) root [] best none
      have h21 : (dfs_with_limit_p sp (dl + 1) root [] best none).2.1 = best := by
        rw [h2]
      have h22 : (dfs_with_limit_p sp (dl + 1) root [] best none).2.2 = none := by
        rw [h2]
      simp only [h21, h22]
      exact ih (dl + 1) best

theorem dfs_p_no_improve (sp : Space σ) (b : Nat)
    (hng : ∀ s, sp.goal s = true → ¬ sp.ident s < b) :
    ∀ (rem : Nat) (s : σ) (v : List Nat),
      (dfs_with_limit_p sp rem s v b none).2 = (b, none) := by
  intro rem
  induction rem with
  | zero =>
      intro s v
      cases hgv : sp.goal s with
      | true => rw [dfs_p_goal _ _ _ _ _ hgv, if_neg (hng s hgv)]
      | false => rw [dfs_p_zero _ _ _ _ hgv]
  | succ rem' ih =>
      intro s v
      cases hgv : sp.goal s with
      | true => rw [dfs_p_goal _ _ _ _ _ hgv, if_neg (hng s hgv)]
      | false =>
          rw [dfs_p_succ _ _ _ _ _ hgv]
          by_cases h : sp.ident s ∈ v
          · rw [if_pos h]
          · rw [if_neg h]
            have hk : ∀ (cs : List σ) (acc : List Nat × Nat × Option σ),
                acc.2 = (b, none) → (dfsKidsP sp rem' cs acc).2 = (b, none) := by
              intro cs
              induction cs with
              | nil => intro acc ha; exact ha
              | cons c cs' ihc =>
                  intro acc ha
                  rw [dfsKidsP_cons]
                  have h21 : acc.2.1 = b := by rw [ha]
                  have h22 : acc.2.2 = none := by rw [ha]
                  refine ihc _ ?_
                  rw [h21, h22]
                  exact ih c acc.1
            simp [hk (sp.children s) (sp.ident s :: v, b, none) rfl]

theorem solveParLoop_no_improve (sp : Space σ) (root : σ) (b : Nat)
    (hng : ∀ s, sp.goal s = true → ¬ sp.ident s < b) :
    ∀ (fuel dl : Nat), solveParLoop sp root fuel dl b none = none := by
  intro fuel
  induction fuel with
  | zero => intro dl; rfl
  | succ f ih =>
      intro dl
      rw [solveParLoop]
      have h2 := dfs_p_no_improve sp b hng (dl + 1) root []
      have h21 : (dfs_with_limit_p sp (dl + 1) root [] b none).2.1 = b := by
        rw [h2]
      have h22 : (dfs_with_limit_p sp (dl + 1) root [] b none).2.2 = none := by
        rw [h2]
      simp only [h21, h22]
      exact ih (dl + 1)

end iddfs_solver

namespace bfs_solver

/-- C2 (code-bug evidence): on the instance whose root is its only state and
a goal, `bfs_solver::solve_par` terminates with the null result — the round
loop goal-tests only children discovered during expansion and never tests
the root — while `bfs_solver::solve_seq` returns the root, a goal at depth
0.  On `twoGoals` (goals 5 and 3 tied at depth 1) the two variants also
disagree on which minimum-depth goal is returned: `solve_par` keeps the
least identifier (3), `solve_seq` the first-enqueued (5). -/
theorem solve_par_misses_root_goal :
    bfs_solver.solve_par rootGoalSpace 0 10 = some none ∧
    bfs_solver.solve_seq rootGoalSpace 0 10 = some (some 0) ∧
    rootGoalSpace.goal 0 = true ∧
    bfs_solver.solve_par twoGoals 0 10 = some (some 3) ∧
    bfs_solver.solve_seq twoGoals 0 10 = some (some 5) := by
  refine ⟨by decide, by decide, rfl, by decide, by decide⟩

end bfs_solver

namespace iddfs_solver

/-- C3 (code-bug evidence): `iddfs_solver::solve_seq` never resets the
process-global `result_seq`; its outer loop runs only while that global is
null.  After a first call on instance `lineA` returned the goal with
identifier 1, a second call — on the different instance `lineB`, whose only
goal has identifier 2 — returns the stale goal 1 without searching, whereas
a call with a fresh global returns 2: the call's result is read from the
prior call's result cell, not computed from its root. -/
theorem solve_seq_reads_stale_global :
    iddfs_solver.solve_seq lineA 0 3 = some 1 ∧
    iddfs_solver.solve_seq_from lineB 0 (some 1) 3 = some 1 ∧
    iddfs_solver.solve_seq lineB 0 3 = some 2 := by
  refine ⟨by decide, by decide, by decide⟩

/-- C6 (code-bug evidence): `dfs_with_limit_p` operates on one shared
path-visited set (passed by reference; `omp task shared(visited)` in the
task-spawning variant), not on a per-branch copy.  On the `diamond`
instance, consider the moment when the task exploring the branch through
state 1 has inserted the identifier of the shared intermediate state 3 and
not yet erased it; the sibling branch's traversal of state 3 then observes
that insertion and is suppressed, finding no goal, whereas with its own copy
of the path-visited set (containing only its own ancestors) it reaches the
goal 4.  An insertion made by one branch is thus observable from a sibling
branch, contradicting the per-branch-copy mandate. -/
theorem dfs_p_shared_visited_observable :
    iddfs_solver.dfs_with_limit_p diamond 2 3 [3] iddfs_solver.ULLONG_MAX none
      = ([3], iddfs_solver.ULLONG_MAX, none) ∧
    iddfs_solver.dfs_with_limit_p diamond 2 3 [] iddfs_solver.ULLONG_MAX none
      = ([], 4, some 4) := by
  refine ⟨by decide, by decide⟩

end iddfs_solver

/-- C7: on the 4-state cycle A→B→C→D→A with no goal, sequential and parallel
BFS terminate with the empty result (the visited set stops re-expansion),
while the outer depth-limit loops of sequential and parallel IDDFS never
terminate: no amount of fuel makes them return. -/
theorem cyc4_bfs_terminates_iddfs_diverges :
    bfs_solver.solve_seq cyc4 0 10 = some none ∧
    bfs_solver.solve_par cyc4 0 10 = some none ∧
    (∀ fuel, iddfs_solver.solve_seq cyc4 0 fuel = none) ∧
    (∀ fuel, iddfs_solver.solve_par cyc4 0 fuel = none) := by
  refine ⟨by decide, by decide, ?_, ?_⟩
  · intro fuel
    exact iddfs_solver.solveSeqLoop_no_goal cyc4 0 (fun _ => rfl) fuel 0
  · intro fuel
    exact iddfs_solver.solveParLoop_no_goal cyc4 0 (fun _ => rfl) fuel 0
      iddfs_solver.ULLONG_MAX

/-- C10: the `solver` base-class constructor (shared by `bfs_solver` and
`iddfs_solver`) signals an invalid-argument error on a null initial state,
producing no object, and otherwise stores exactly the given state as the
root used by the solve calls. -/
theorem solver_ctor_validates_root :
    solver_ctor (none : Option Nat) =
      Except.error ("Initial state cannot be null.") ∧
    ∀ s : Nat, solver_ctor (some s) = Except.ok s :=
  ⟨rfl, fun _ => rfl⟩

/-- No assignment satisfies both `{x1}` and `{¬x1}`: every state of the
`satP1` instance fails `sat_state::is_goal`. -/
theorem satP1_no_goal : ∀ a, (satSpace satP1).goal a = false := by
  intro a
  show sat_state.is_goal satP1 a = false
  simp only [sat_state.is_goal, satP1, List.all_cons, List.all_nil,
    List.any_cons, List.any_nil, Bool.and_true, Bool.or_false]
  cases h : sat_state.lookupA a 1 with
  | none => simp [sat_state.litSat, h]
  | some v => cases v <;> simp [sat_state.litSat, h]

/-- C8 counterexample: on the unsatisfiable one-variable SAT instance with
clauses `{x1}` and `{¬x1}`, sequential IDDFS does not terminate at all — it
never returns a result for any fuel — so it cannot, as the claim states,
terminate and report the empty result. -/
theorem satP1_iddfs_seq_never_returns :
    ¬ ∃ fuel r, iddfs_solver.solve_seq (satSpace satP1) [] fuel = some r := by
  rintro ⟨fuel, r, h⟩
  have := iddfs_solver.solveSeqLoop_no_goal (satSpace satP1) [] satP1_no_goal
    fuel 0
  rw [iddfs_solver.solve_seq, iddfs_solver.solve_seq_from] at h
  rw [this] at h
  cases h

/-- C8 (amended): on the unsatisfiable SAT instance with one variable and
clauses `{x1}`, `{¬x1}`, both BFS variants terminate after exhausting the
two complete assignments (whose identifiers are 2 for `x1 := true` and 1
for `x1 := false`) and report the empty result, while sequential and
parallel IDDFS never terminate on it. -/
theorem satP1_solver_outcomes :
    bfs_solver.solve_seq (satSpace satP1) [] 10 = some none ∧
    bfs_solver.solve_par (satSpace satP1) [] 10 = some none ∧
    sat_state.get_identifier satP1 [(1, true)] = 2 ∧
    sat_state.get_identifier satP1 [(1, false)] = 1 ∧
    sat_state.get_descendents satP1 [] = [[(1, true)], [(1, false)]] ∧
    (∀ fuel, iddfs_solver.solve_seq (satSpace satP1) [] fuel = none) ∧
    (∀ fuel, iddfs_solver.solve_par (satSpace satP1) [] fuel = none) := by
  refine ⟨by decide, by decide, by decide, by decide, by decide, ?_, ?_⟩
  · intro fuel
    exact iddfs_solver.solveSeqLoop_no_goal (satSpace satP1) [] satP1_no_goal
      fuel 0
  · intro fuel
    exact iddfs_solver.solveParLoop_no_goal (satSpace satP1) [] satP1_no_goal
      fuel 0 iddfs_solver.ULLONG_MAX

namespace iddfs_solver

theorem trace_fst (sp : Space σ) :
    ∀ (rem : Nat) (s : σ) (v : List Nat) (res : Option σ),
      (dfs_with_limit_seq_trace sp rem s v res).1 =
        dfs_with_limit_seq sp rem s v res := by
  intro rem
  induction rem with
  | zero =>
      intro s v res
      rw [trace_zero, dfs_seq_zero]
      by_cases h : (sp.goal s && improves sp s res) = true
      · simp [h]
      · simp [h]
  | succ rem' ih =>
      intro s v res
      rw [trace_succ, dfs_seq_succ]
      by_cases h : (sp.goal s && improves sp s res) = true
      · simp [h]
      · simp only [if_neg h]
        have hk : ∀ (cs : List σ) (acc : Option σ × List σ),
            (traceKids sp rem' cs (sp.ident s :: v) acc).1 =
              dfsKidsSeq sp rem' cs (sp.ident s :: v) acc.1 := by
          intro cs
          induction cs with
          | nil => intro acc; rfl
          | cons c cs' ihc =>
              intro acc
              rw [traceKids_cons, dfsKidsSeq_cons]
              by_cases hm : sp.ident c ∈ sp.ident s :: v
              · simp only [if_pos hm]
                exact ihc acc
              · simp only [if_neg hm]
                rw [ihc]
                rw [ih]
        exact hk (sp.children s) (res, [s])

theorem trace_origin (sp : Space σ) :
    ∀ (rem : Nat) (s : σ) (v : List Nat) (res : Option σ),
      (dfs_with_limit_seq_trace sp rem s v res).1 = res ∨
      ∃ g, (dfs_with_limit_seq_trace sp rem s v res).1 = some g ∧
        g ∈ (dfs_with_limit_seq_trace sp rem s v res).2 ∧ sp.goal g = true := by
  intro rem
  induction rem with
  | zero =>
      intro s v res
      rw [trace_zero]
      by_cases h : (sp.goal s && improves sp s res) = true
      · rw [if_pos h]
        exact Or.inr ⟨s, rfl, List.mem_singleton_self s,
          (Bool.and_eq_true_iff.mp h).1⟩
      · rw [if_neg h]
        exact Or.inl rfl
  | succ rem' ih =>
      intro s v res
      rw [trace_succ]
      by_cases h : (sp.goal s && improves sp s res) = true
      · rw [if_pos h]
        exact Or.inr ⟨s, rfl, List.mem_singleton_self s,
          (Bool.and_eq_true_iff.mp h).1⟩
      · rw [if_neg h]
        have hk : ∀ (cs : List σ) (acc : Option σ × List σ),
            (acc.1 = res ∨ ∃ g, acc.1 = some g ∧ g ∈ acc.2 ∧ sp.goal g = true) →
            ((traceKids sp rem' cs (sp.ident s :: v) acc).1 = res ∨
              ∃ g, (traceKids sp rem' cs (sp.ident s :: v) acc).1 = some g ∧
                g ∈ (traceKids sp rem' cs (sp.ident s :: v) acc).2 ∧
                sp.goal g = true) := by
          intro cs
          induction cs with
          | nil => intro acc hq; exact hq
          | cons c cs' ihc =>
              intro acc hq
              rw [traceKids_cons]
              by_cases hm : sp.ident c ∈ sp.ident s :: v
              · rw [if_pos hm]
                exact ihc acc hq
              · rw [if_neg hm]
                refine ihc _ ?_
                rcases ih c (sp.ident s :: v) acc.1 with h1 | ⟨g, hg1, hg2, hg3⟩
                · rcases hq with hq1 | ⟨g, hg1, hg2, hg3⟩
                  · exact Or.inl (h1.trans hq1)
                  · exact Or.inr ⟨g, h1.trans hg1,
                      List.mem_append_left _ hg2, hg3⟩
                · exact Or.inr ⟨g, hg1,
                    List.mem_append_right _ hg2, hg3⟩
        exact hk (sp.children s) (res, [s]) (Or.inl rfl)

theorem trace_mono (sp : Space σ) :
    ∀ (rem : Nat) (s : σ) (v : List Nat) (r : σ),
      ∃ r', (dfs_with_limit_seq_trace sp rem s v (some r)).1 = some r' ∧
        sp.ident r' ≤ sp.ident r := by
  intro rem
  induction rem with
  | zero =>
      intro s v r
      rw [trace_zero]
      by_cases h : (sp.goal s && improves sp s (some r)) = true
      · rw [if_pos h]
        have := (Bool.and_eq_true_iff.mp h).2
        have hlt : sp.ident s < sp.ident r := by
          simpa [improves] using this
        exact ⟨s, rfl, Nat.le_of_lt hlt⟩
      · rw [if_neg h]
        exact ⟨r, rfl, Nat.le_refl _⟩
  | succ rem' ih =>
      intro s v r
      rw [trace_succ]
      by_cases h : (sp.goal s && improves sp s (some r)) = true
      · rw [if_pos h]
        have := (Bool.and_eq_true_iff.mp h).2
        have hlt : sp.ident s < sp.ident r := by
          simpa [improves] using this
        exact ⟨s, rfl, Nat.le_of_lt hlt⟩
      · rw [if_neg h]
        have hk : ∀ (cs : List σ) (acc : Option σ × List σ) (r0 : σ),
            acc.1 = some r0 →
            ∃ r', (traceKids sp rem' cs (sp.ident s :: v) acc).1 = some r' ∧
              sp.ident r' ≤ sp.ident r0 := by
          intro cs
          induction cs with
          | nil => intro acc r0 ha; exact ⟨r0, ha, Nat.le_refl _⟩
          | cons c cs' ihc =>
              intro acc r0 ha
              rw [traceKids_cons]
              by_cases hm : sp.ident c ∈ sp.ident s :: v
              · rw [if_pos hm]
                exact ihc acc r0 ha
              · rw [if_neg hm]
                obtain ⟨r1, hr1, hle1⟩ := by
                  have := ih c (sp.ident s :: v) r0
                  rw [← ha] at this
                  exact this
                obtain ⟨r', hr', hle'⟩ := ihc
                  ((dfs_with_limit_seq_trace sp rem' c (sp.ident s :: v) acc.1).1,
                    acc.2 ++ (dfs_with_limit_seq_trace sp rem' c
                      (sp.ident s :: v) acc.1).2)
                  r1 hr1
                exact ⟨r', hr', Nat.le_trans hle' hle1⟩
        exact hk (sp.children s) (some r, [s]) r rfl

theorem trace_min (sp : Space σ) :
    ∀ (rem : Nat) (s : σ) (v : List Nat) (res : Option σ),
      ∀ x ∈ (dfs_with_limit_seq_trace sp rem s v res).2, sp.goal x = true →
        ∃ r', (dfs_with_limit_seq_trace sp rem s v res).1 = some r' ∧
          sp.ident r' ≤ sp.ident x := by
  have base : ∀ (s : σ) (res : Option σ),
      (sp.goal s && improves sp s res) ≠ true → sp.goal s = true →
      ∃ r, res = some r ∧ sp.ident r ≤ sp.ident s := by
    intro s res hc hg
    cases res with
    | none => exact absurd (by simp [hg, improves]) hc
    | some r =>
        refine ⟨r, rfl, ?_⟩
        by_contra hlt
        exact hc (by simp [hg, improves]; omega)
  intro rem
  induction rem with
  | zero =>
      intro s v res x hx hgx
      rw [trace_zero] at hx ⊢
      by_cases h : (sp.goal s && improves sp s res) = true
      · rw [if_pos h] at hx ⊢
        have : x = s := by simpa using hx
        subst this
        exact ⟨x, rfl, Nat.le_refl _⟩
      · rw [if_neg h] at hx ⊢
        have hxs : x = s := by simpa using hx
        subst hxs
        obtain ⟨r, hr, hle⟩ := base x res h hgx
        exact ⟨r, by simp [hr], hle⟩
  | succ rem' ih =>
      intro s v res x hx hgx
      rw [trace_succ] at hx ⊢
      by_cases h : (sp.goal s && improves sp s res) = true
      · rw [if_pos h] at hx ⊢
        have : x = s := by simpa using hx
        subst this
        exact ⟨x, rfl, Nat.le_refl _⟩
      · rw [if_neg h] at hx ⊢
        have hk : ∀ (cs : List σ) (acc : Option σ × List σ),
            (∀ y ∈ acc.2, sp.goal y = true →
              ∃ r', acc.1 = some r' ∧ sp.ident r' ≤ sp.ident y) →
            ∀ y ∈ (traceKids sp rem' cs (sp.ident s :: v) acc).2,
              sp.goal y = true →
              ∃ r', (traceKids sp rem' cs (sp.ident s :: v) acc).1 = some r' ∧
                sp.ident r' ≤ sp.ident y := by
          intro cs
          induction cs with
          | nil => intro acc hp y hy hgy; exact hp y hy hgy
          | cons c cs' ihc =>
              intro acc hp y hy hgy
              rw [traceKids_cons] at hy ⊢
              by_cases hm : sp.ident c ∈ sp.ident s :: v
              · rw [if_pos hm] at hy ⊢
                exact ihc acc hp y hy hgy
              · rw [if_neg hm] at hy ⊢
                refine ihc _ ?_ y hy hgy
                intro z hz hgz
                rcases List.mem_append.mp hz with hz' | hz'
                · obtain ⟨r', hr', hle'⟩ := hp z hz' hgz
                  obtain ⟨r'', hr'', hle''⟩ := by
                    have := trace_mono sp rem' c (sp.ident s :: v) r'
                    rw [← hr'] at this
                    exact this
                  exact ⟨r'', hr'', Nat.le_trans hle'' hle'⟩
                · exact ih c (sp.ident s :: v) acc.1 z hz' hgz
        refine hk (sp.children s) (res, [s]) ?_ x hx hgx
        intro y hy hgy
        have hys : y = s := by simpa using hy
        subst hys
        obtain ⟨r, hr, hle⟩ := base y res h hgy
        exact ⟨r, by simp [hr], hle⟩

/-- C5: one sequential IDDFS pass at a fixed `depth_limit` (started, as in
`iddfs_solver::solve_seq`, with `result_seq` null and an empty path-visited
set) completes the whole depth-limited traversal: when it returns `some g`,
the goal `g` it recorded is one of the traversed (goal-tested) states and
has the least identifier among all goals encountered anywhere in that full
traversal — in particular the pass did not stop at the first goal hit. -/
theorem dfs_seq_pass_records_min (sp : Space σ) (dl : Nat) (root : σ) :
    ∀ (g : σ) (tr : List σ),
      dfs_with_limit_seq_trace sp dl root [] none = (some g, tr) →
      dfs_with_limit_seq sp dl root [] none = some g ∧
      sp.goal g = true ∧ g ∈ tr ∧
      (∀ x ∈ tr, sp.goal x = true → sp.ident g ≤ sp.ident x) := by
  intro g tr h
  have h1 : (dfs_with_limit_seq_trace sp dl root [] none).1 = some g := by
    rw [h]
  have h2 : (dfs_with_limit_seq_trace sp dl root [] none).2 = tr := by
    rw [h]
  refine ⟨by rw [← trace_fst, h1], ?_, ?_, ?_⟩
  · rcases trace_origin sp dl root [] none with h3 | ⟨g', hg1, _, hg3⟩
    · rw [h1] at h3; cases h3
    · rw [h1] at hg1
      have : g' = g := by simpa using hg1.symm
      exact this ▸ hg3
  · rcases trace_origin sp dl root [] none with h3 | ⟨g', hg1, hg2, _⟩
    · rw [h1] at h3; cases h3
    · rw [h1] at hg1
      have : g' = g := by simpa using hg1.symm
      rw [← h2]
      exact this ▸ hg2
  · intro x hx hgx
    obtain ⟨r', hr', hle⟩ := trace_min sp dl root [] none x (h2 ▸ hx) hgx
    rw [h1] at hr'
    have : r' = g := by simpa using hr'.symm
    exact this ▸ hle

/-- Witness for C5 on `twoGoals` at `depth_limit = 1`: the pass encounters
the goal 5 first, keeps traversing, and records the later goal 3 with the
smaller identifier. -/
theorem dfs_seq_pass_records_min_witness :
    dfs_with_limit_seq_trace twoGoals 1 0 [] none = (some 3, [0, 5, 3]) ∧
    (dfs_with_limit_seq twoGoals 1 0 [] none = some 3 ∧
      twoGoals.goal 3 = true ∧ (3 : Nat) ∈ [0, 5, 3] ∧
      (∀ x ∈ [0, 5, 3], twoGoals.goal x = true →
        twoGoals.ident 3 ≤ twoGoals.ident x)) :=
  ⟨by decide, dfs_seq_pass_records_min twoGoals 1 0 3 [0, 5, 3] (by decide)⟩

end iddfs_solver

/-- A state at its minimal depth `m` is reached by a chain of length `m`
whose vertices are pairwise distinct and, under collision-freedom, have
pairwise distinct identifiers. -/
theorem minimal_goal_chain {sp : Space σ} {root t0 : σ} {m : Nat}
    (hinj : InjOnReach sp root) (ht0 : ReachN sp root m t0)
    (hmin : ∀ j, ReachN sp root j t0 → m ≤ j) :
    ∃ l, Chain sp root l t0 ∧ l.length = m ∧
      ((root :: l).map sp.ident).Nodup ∧
      (∀ x ∈ root :: l, Reachable sp root x) := by
  obtain ⟨l, hch, hlen⟩ := reachN_iff_chain.mp ht0
  have hminlen : ∀ l2, Chain sp root l2 t0 → l.length ≤ l2.length := by
    intro l2 h2
    have : ReachN sp root l2.length t0 := reachN_iff_chain.mpr ⟨l2, h2, rfl⟩
    have := hmin _ this
    omega
  have hnd : (root :: l).Nodup := chain_minimal_nodup hch hminlen
  have hre : ∀ x ∈ root :: l, Reachable sp root x := by
    intro x hx
    rcases List.mem_cons.mp hx with rfl | hx'
    · exact ⟨0, ReachN.refl⟩
    · exact hch.mem_reachable x hx'
  refine ⟨l, hch, hlen, ?_, hre⟩
  exact List.Nodup.map_on
    (fun x hx y hy he => hinj x y (hre x hx) (hre y hy) he) hnd

namespace iddfs_solver

theorem dfs_seq_goal_none {sp : Space σ} (rem : Nat) (s : σ) (v : List Nat)
    (hg : sp.goal s = true) :
    dfs_with_limit_seq sp rem s v none = some s := by
  cases rem with
  | zero => rw [dfs_seq_zero]; simp [hg, improves]
  | succ rem' => rw [dfs_seq_succ]; simp [hg, improves]

theorem dfs_seq_mono {sp : Space σ} :
    ∀ (rem : Nat) (s : σ) (v : List Nat) (r : σ),
      ∃ r', dfs_with_limit_seq sp rem s v (some r) = some r' ∧
        sp.ident r' ≤ sp.ident r := by
  intro rem
  induction rem with
  | zero =>
      intro s v r
      rw [dfs_seq_zero]
      by_cases h : (sp.goal s && improves sp s (some r)) = true
      · rw [if_pos h]
        have hlt : sp.ident s < sp.ident r := by
          simpa [improves] using (Bool.and_eq_true_iff.mp h).2
        exact ⟨s, rfl, Nat.le_of_lt hlt⟩
      · rw [if_neg h]
        exact ⟨r, rfl, Nat.le_refl _⟩
  | succ rem' ih =>
      intro s v r
      rw [dfs_seq_succ]
      by_cases h : (sp.goal s && improves sp s (some r)) = true
      · rw [if_pos h]
        have hlt : sp.ident s < sp.ident r := by
          simpa [improves] using (Bool.and_eq_true_iff.mp h).2
        exact ⟨s, rfl, Nat.le_of_lt hlt⟩
      · rw [if_neg h]
        have hk : ∀ (cs : List σ) (v0 : List Nat) (r0 : σ),
            ∃ r', dfsKidsSeq sp rem' cs v0 (some r0) = some r' ∧
              sp.ident r' ≤ sp.ident r0 := by
          intro cs
          induction cs with
          | nil => intro v0 r0; exact ⟨r0, rfl, Nat.le_refl _⟩
          | cons c cs' ihc =>
              intro v0 r0
              rw [dfsKidsSeq_cons]
              by_cases hm : sp.ident c ∈ v0
              · rw [if_pos hm]; exact ihc v0 r0
              · rw [if_neg hm]
                obtain ⟨r1, hr1, hle1⟩ := ih c v0 r0
                rw [hr1]
                obtain ⟨r', hr', hle'⟩ := ihc v0 r1
                exact ⟨r', hr', Nat.le_trans hle' hle1⟩
        exact hk (sp.children s) (sp.ident s :: v) r
  
theorem dfsKidsSeq_mono {sp : Space σ} (rem : Nat) :
    ∀ (cs : List σ) (v : List Nat) (r : σ),
      ∃ r', dfsKidsSeq sp rem cs v (some r) = some r' ∧
        sp.ident r' ≤ sp.ident r := by
  intro cs
  induction cs with
  | nil => intro v r; exact ⟨r, rfl, Nat.le_refl _⟩
  | cons c cs' ihc =>
      intro v r
      rw [dfsKidsSeq_cons]
      by_cases hm : sp.ident c ∈ v
      · rw [if_pos hm]; exact ihc v r
      · rw [if_neg hm]
        obtain ⟨r1, hr1, hle1⟩ := dfs_seq_mono rem c v r
        rw [hr1]
        obtain ⟨r', hr', hle'⟩ := ihc v r1
        exact ⟨r', hr', Nat.le_trans hle' hle1⟩

theorem dfs_seq_sound {sp : Space σ} :
    ∀ (rem : Nat) (s : σ) (v : List Nat) (res : Option σ) (r : σ),
      dfs_with_limit_seq sp rem s v res = some r →
      res = some r ∨ (sp.goal r = true ∧ ∃ j, j ≤ rem ∧ ReachN sp s j r) := by
  intro rem
  induction rem with
  | zero =>
      intro s v res r h
      rw [dfs_seq_zero] at h
      by_cases hc : (sp.goal s && improves sp s res) = true
      · rw [if_pos hc] at h
        have : s = r := by simpa using h
        subst this
        exact Or.inr ⟨(Bool.and_eq_true_iff.mp hc).1, 0, Nat.le_refl _,
          ReachN.refl⟩
      · rw [if_neg hc] at h
        exact Or.inl h
  | succ rem' ih =>
      intro s v res r h
      rw [dfs_seq_succ] at h
      by_cases hc : (sp.goal s && improves sp s res) = true
      · rw [if_pos hc] at h
        have : s = r := by simpa using h
        subst this
        exact Or.inr ⟨(Bool.and_eq_true_iff.mp hc).1, 0, Nat.zero_le _,
          ReachN.refl⟩
      · rw [if_neg hc] at h
        have hk : ∀ (cs : List σ) (res0 : Option σ),
            dfsKidsSeq sp rem' cs (sp.ident s :: v) res0 = some r →
            res0 = some r ∨ (sp.goal r = true ∧
              ∃ c ∈ cs, ∃ j, j ≤ rem' ∧ ReachN sp c j r) := by
          intro cs
          induction cs with
          | nil => intro res0 h0; exact Or.inl h0
          | cons c cs' ihc =>
              intro res0 h0
              rw [dfsKidsSeq_cons] at h0
              rcases ihc _ h0 with h1 | ⟨hg, c', hc', j, hj, hr⟩
              · by_cases hm : sp.ident c ∈ sp.ident s :: v
                · rw [if_pos hm] at h1
                  exact Or.inl h1
                · rw [if_neg hm] at h1
                  rcases ih c (sp.ident s :: v) res0 r h1 with h2 | ⟨hg, j, hj, hr⟩
                  · exact Or.inl h2
                  · exact Or.inr ⟨hg, c, List.mem_cons_self _ _, j, hj, hr⟩
              · exact Or.inr ⟨hg, c', List.mem_cons_of_mem _ hc', j, hj, hr⟩
        rcases hk (sp.children s) res h with h1 | ⟨hg, c, hc', j, hj, hr⟩
        · exact Or.inl h1
        · exact Or.inr ⟨hg, j + 1, by omega, hr.prepend hc'⟩

theorem dfs_seq_complete {sp : Space σ} :
    ∀ (l : List σ) (s t : σ), Chain sp s l t → sp.goal t = true →
      ∀ (rem : Nat) (v : List Nat), l.length ≤ rem →
        (∀ x ∈ s :: l, sp.ident x ∉ v) →
        ((s :: l).map sp.ident).Nodup →
        ∃ r, dfs_with_limit_seq sp rem s v none = some r := by
  intro l
  induction l with
  | nil =>
      intro s t hch hgt rem v _ _ _
      have hts : t = s := by cases hch; rfl
      exact ⟨s, dfs_seq_goal_none rem s v (hts ▸ hgt)⟩
  | cons u l' ih =>
      intro s t hch hgt rem v hlen hnv hnd
      by_cases hgs : sp.goal s = true
      · exact ⟨s, dfs_seq_goal_none rem s v hgs⟩
      · cases hch with
        | cons hu hrest =>
            cases rem with
            | zero => simp at hlen
            | succ rem'' =>
                rw [dfs_seq_succ]
                have hcond : (sp.goal s && improves sp s none) ≠ true := by
                  simp [hgs]
                rw [if_neg hcond]
                obtain ⟨cs1, cs2, hsplit⟩ := List.append_of_mem hu
                rw [hsplit, dfsKidsSeq_append, dfsKidsSeq_cons]
                have hmapnd : sp.ident s ∉ ((u :: l').map sp.ident) ∧
                    ((u :: l').map sp.ident).Nodup := by
                  rw [List.map_cons] at hnd
                  exact List.nodup_cons.mp hnd
                have hne_s : ∀ x ∈ u :: l', sp.ident x ≠ sp.ident s := by
                  intro x hx he
                  exact hmapnd.1 (he ▸ List.mem_map_of_mem sp.ident hx)
                have hkeep : ∀ (r0 : σ) (e : Option σ), e = some r0 →
                    ∃ r, dfsKidsSeq sp rem'' cs2 (sp.ident s :: v) e = some r := by
                  intro r0 e he
                  subst he
                  obtain ⟨r, hr, _⟩ := dfsKidsSeq_mono rem'' cs2 (sp.ident s :: v) r0
                  exact ⟨r, hr⟩
                set R1 := dfsKidsSeq sp rem'' cs1 (sp.ident s :: v) none with hR1def
                cases hR1 : R1 with
                | some r1 =>
                    by_cases hm : sp.ident u ∈ sp.ident s :: v
                    · rw [if_pos hm]
                      exact hkeep r1 _ rfl
                    · rw [if_neg hm]
                      obtain ⟨r2, hr2, _⟩ := dfs_seq_mono rem'' u (sp.ident s :: v) r1
                      rw [hr2]
                      exact hkeep r2 _ rfl
                | none =>
                    have hm : sp.ident u ∉ sp.ident s :: v := by
                      intro hmem
                      rcases List.mem_cons.mp hmem with he | hmem'
                      · exact hne_s u (List.mem_cons_self _ _) he
                      · exact hnv u (List.mem_cons_of_mem _
                          (List.mem_cons_self _ _)) hmem'
                    rw [if_neg hm]
                    have hnv' : ∀ x ∈ u :: l', sp.ident x ∉ sp.ident s :: v := by
                      intro x hx hmem
                      rcases List.mem_cons.mp hmem with he | hmem'
                      · exact hne_s x hx he
                      · exact hnv x (List.mem_cons_of_mem _ hx) hmem'
                    obtain ⟨r2, hr2⟩ := ih u t hrest hgt rem''
                      (sp.ident s :: v) (by simp at hlen; omega) hnv' hmapnd.2
                    rw [hr2]
                    exact hkeep r2 _ rfl

end iddfs_solver

namespace iddfs_solver

theorem dfs_seq_pass_none_below {sp : Space σ} (root : σ) {m : Nat}
    (hm : ∀ k, (∃ t, ReachN sp root k t ∧ sp.goal t = true) → m ≤ k) :
    ∀ d, d < m → dfs_with_limit_seq sp d root [] none = none := by
  intro d hd
  cases he : dfs_with_limit_seq sp d root [] none with
  | none => rfl
  | some g =>
      rcases dfs_seq_sound d root [] none g he with h | ⟨hg, j, hj, hr⟩
      · cases h
      · exact absurd (hm j ⟨g, hr, hg⟩) (by omega)

theorem dfs_seq_pass_some_at {sp : Space σ} (root : σ)
    (hinj : InjOnReach sp root) {m : Nat} {t0 : σ}
    (ht0 : ReachN sp root m t0) (ht0g : sp.goal t0 = true)
    (hmin : ∀ j, ReachN sp root j t0 → m ≤ j) :
    ∃ g, dfs_with_limit_seq sp (max 1 m) root [] none = some g := by
  cases m with
  | zero =>
      cases ht0 with
      | refl => exact ⟨root, dfs_seq_goal_none _ root [] ht0g⟩
  | succ m' =>
      obtain ⟨l, hch, hlen, hnd, _⟩ := minimal_goal_chain hinj ht0 hmin
      have hmax : max 1 (m' + 1) = m' + 1 := by omega
      rw [hmax]
      exact dfs_seq_complete l root t0 hch ht0g (m' + 1) []
        (by omega) (by simp) hnd

theorem solveSeqLoop_unroll {sp : Space σ} (root : σ) (D : Nat) (g : σ)
    (hnone : ∀ d, 1 ≤ d → d < D → dfs_with_limit_seq sp d root [] none = none)
    (hD : dfs_with_limit_seq sp D root [] none = some g) (hD1 : 1 ≤ D) :
    solve_seq sp root (D + 1) = some g := by
  have hstep : ∀ (k : Nat), ∀ (dl f : Nat), dl + k + 1 = D →
      solveSeqLoop sp root (k + (f + 2)) dl none = some g := by
    intro k
    induction k with
    | zero =>
        intro dl f he
        have hdl : dl + 1 = D := by omega
        rw [Nat.zero_add, solveSeqLoop]
        rw [hdl, hD]
        rw [solveSeqLoop]
    | succ k ih =>
        intro dl f he
        have hfuel : k + 1 + (f + 2) = (k + (f + 2)) + 1 := by omega
        rw [hfuel, solveSeqLoop]
        have hp : dfs_with_limit_seq sp (dl + 1) root [] none = none :=
          hnone (dl + 1) (by omega) (by omega)
        rw [hp]
        exact ih (dl + 1) f (by omega)
  have := hstep (D - 1) 0 0 (by omega)
  have hf : D - 1 + (0 + 2) = D + 1 := by omega
  rw [hf] at this
  exact this

end iddfs_solver

namespace iddfs_solver

theorem dfs_p_restore {sp : Space σ} :
    ∀ (rem : Nat) (s : σ) (v : List Nat) (b : Nat) (res : Option σ),
      (dfs_with_limit_p sp rem s v b res).1 = v := by
  intro rem
  induction rem with
  | zero =>
      intro s v b res
      cases hgval : sp.goal s with
      | true =>
          rw [dfs_p_goal _ _ _ _ _ hgval]
          by_cases hlt : sp.ident s < b
          · rw [if_pos hlt]
          · rw [if_neg hlt]
      | false => rw [dfs_p_zero _ _ _ _ hgval]
  | succ rem' ih =>
      intro s v b res
      cases hgval : sp.goal s with
      | true =>
          rw [dfs_p_goal _ _ _ _ _ hgval]
          by_cases hlt : sp.ident s < b
          · rw [if_pos hlt]
          · rw [if_neg hlt]
      | false =>
          rw [dfs_p_succ _ _ _ _ _ hgval]
          by_cases hm : sp.ident s ∈ v
          · rw [if_pos hm]
          · rw [if_neg hm]
            have hk : ∀ (cs : List σ) (acc : List Nat × Nat × Option σ),
                (dfsKidsP sp rem' cs acc).1 = acc.1 := by
              intro cs
              induction cs with
              | nil => intro acc; rfl
              | cons c cs' ihc =>
                  intro acc
                  rw [dfsKidsP_cons, ihc, ih]
            show ((dfsKidsP sp rem' (sp.children s)
              (sp.ident s :: v, b, res)).1.erase (sp.ident s)) = v
            rw [hk]
            exact List.erase_cons_head _ _

theorem dfsKidsP_restore {sp : Space σ} (rem : Nat) :
    ∀ (cs : List σ) (acc : List Nat × Nat × Option σ),
      (dfsKidsP sp rem cs acc).1 = acc.1 := by
  intro cs
  induction cs with
  | nil => intro acc; rfl
  | cons c cs' ihc =>
      intro acc
      rw [dfsKidsP_cons, ihc, dfs_p_restore]

theorem dfs_p_sync {sp : Space σ} :
    ∀ (rem : Nat) (s : σ) (v : List Nat) (b : Nat) (res : Option σ),
      (res = none → b = ULLONG_MAX) →
      (∀ r0, res = some r0 → b = sp.ident r0) →
      (((dfs_with_limit_p sp rem s v b res).2.2 = none →
          (dfs_with_limit_p sp rem s v b res).2.1 = ULLONG_MAX) ∧
        (∀ r0, (dfs_with_limit_p sp rem s v b res).2.2 = some r0 →
          (dfs_with_limit_p sp rem s v b res).2.1 = sp.ident r0)) := by
  intro rem
  induction rem with
  | zero =>
      intro s v b res h1 h2
      cases hgval : sp.goal s with
      | true =>
          rw [dfs_p_goal _ _ _ _ _ hgval]
          by_cases hlt : sp.ident s < b
          · rw [if_pos hlt]
            refine ⟨fun h => ?_, fun r0 h => ?_⟩
            · cases h
            · have : s = r0 := by simpa using h
              rw [this]
          · rw [if_neg hlt]
            exact ⟨h1, h2⟩
      | false =>
          rw [dfs_p_zero _ _ _ _ hgval]
          exact ⟨h1, h2⟩
  | succ rem' ih =>
      intro s v b res h1 h2
      cases hgval : sp.goal s with
      | true =>
          rw [dfs_p_goal _ _ _ _ _ hgval]
          by_cases hlt : sp.ident s < b
          · rw [if_pos hlt]
            refine ⟨fun h => ?_, fun r0 h => ?_⟩
            · cases h
            · have : s = r0 := by simpa using h
              rw [this]
          · rw [if_neg hlt]
            exact ⟨h1, h2⟩
      | false =>
          rw [dfs_p_succ _ _ _ _ _ hgval]
          by_cases hm : sp.ident s ∈ v
          · rw [if_pos hm]
            exact ⟨h1, h2⟩
          · rw [if_neg hm]
            have hk : ∀ (cs : List σ) (acc : List Nat × Nat × Option σ),
                (acc.2.2 = none → acc.2.1 = ULLONG_MAX) →
                (∀ r0, acc.2.2 = some r0 → acc.2.1 = sp.ident r0) →
                (((dfsKidsP sp rem' cs acc).2.2 = none →
                    (dfsKidsP sp rem' cs acc).2.1 = ULLONG_MAX) ∧
                  (∀ r0, (dfsKidsP sp rem' cs acc).2.2 = some r0 →
                    (dfsKidsP sp rem' cs acc).2.1 = sp.ident r0)) := by
              intro cs
              induction cs with
              | nil => intro acc ha1 ha2; exact ⟨ha1, ha2⟩
              | cons c cs' ihc =>
                  intro acc ha1 ha2
                  rw [dfsKidsP_cons]
                  obtain ⟨hb1, hb2⟩ := ih c acc.1 acc.2.1 acc.2.2 ha1 ha2
                  exact ihc _ hb1 hb2
            exact hk (sp.children s) (sp.ident s :: v, b, res) h1 h2

theorem dfs_p_stays_some {sp : Space σ} :
    ∀ (rem : Nat) (s : σ) (v : List Nat) (b : Nat) (r : σ),
      (dfs_with_limit_p sp rem s v b (some r)).2.2.isSome := by
  intro rem
  induction rem with
  | zero =>
      intro s v b r
      cases hgval : sp.goal s with
      | true =>
          rw [dfs_p_goal _ _ _ _ _ hgval]
          by_cases hlt : sp.ident s < b
          · rw [if_pos hlt]; rfl
          · rw [if_neg hlt]; rfl
      | false => rw [dfs_p_zero _ _ _ _ hgval]; rfl
  | succ rem' ih =>
      intro s v b r
      cases hgval : sp.goal s with
      | true =>
          rw [dfs_p_goal _ _ _ _ _ hgval]
          by_cases hlt : sp.ident s < b
          · rw [if_pos hlt]; rfl
          · rw [if_neg hlt]; rfl
      | false =>
          rw [dfs_p_succ _ _ _ _ _ hgval]
          by_cases hm : sp.ident s ∈ v
          · rw [if_pos hm]; rfl
          · rw [if_neg hm]
            have hk : ∀ (cs : List σ) (acc : List Nat × Nat × Option σ),
                acc.2.2.isSome → (dfsKidsP sp rem' cs acc).2.2.isSome := by
              intro cs
              induction cs with
              | nil => intro acc ha; exact ha
              | cons c cs' ihc =>
                  intro acc ha
                  rw [dfsKidsP_cons]
                  obtain ⟨r0, hr0⟩ := Option.isSome_iff_exists.mp ha
                  refine ihc _ ?_
                  rw [hr0]
                  exact ih c acc.1 acc.2.1 r0
            exact hk (sp.children s) (sp.ident s :: v, b, some r) rfl

theorem dfsKidsP_stays_some {sp : Space σ} (rem : Nat) :
    ∀ (cs : List σ) (acc : List Nat × Nat × Option σ),
      acc.2.2.isSome → (dfsKidsP sp rem cs acc).2.2.isSome := by
  intro cs
  induction cs with
  | nil => intro acc ha; exact ha
  | cons c cs' ihc =>
      intro acc ha
      rw [dfsKidsP_cons]
      obtain ⟨r0, hr0⟩ := Option.isSome_iff_exists.mp ha
      refine ihc _ ?_
      rw [hr0]
      exact dfs_p_stays_some rem c acc.1 acc.2.1 r0

theorem dfs_p_sound {sp : Space σ} :
    ∀ (rem : Nat) (s : σ) (v : List Nat) (b : Nat) (res : Option σ) (r : σ),
      (dfs_with_limit_p sp rem s v b res).2.2 = some r →
      res = some r ∨ (sp.goal r = true ∧ ∃ j, j ≤ rem ∧ ReachN sp s j r) := by
  intro rem
  induction rem with
  | zero =>
      intro s v b res r h
      cases hgval : sp.goal s with
      | true =>
          rw [dfs_p_goal _ _ _ _ _ hgval] at h
          by_cases hlt : sp.ident s < b
          · rw [if_pos hlt] at h
            have : s = r := by simpa using h
            subst this
            exact Or.inr ⟨hgval, 0, Nat.le_refl _, ReachN.refl⟩
          · rw [if_neg hlt] at h
            exact Or.inl h
      | false =>
          rw [dfs_p_zero _ _ _ _ hgval] at h
          exact Or.inl h
  | succ rem' ih =>
      intro s v b res r h
      cases hgval : sp.goal s with
      | true =>
          rw [dfs_p_goal _ _ _ _ _ hgval] at h
          by_cases hlt : sp.ident s < b
          · rw [if_pos hlt] at h
            have : s = r := by simpa using h
            subst this
            exact Or.inr ⟨hgval, 0, Nat.zero_le _, ReachN.refl⟩
          · rw [if_neg hlt] at h
            exact Or.inl h
      | false =>
          rw [dfs_p_succ _ _ _ _ _ hgval] at h
          by_cases hm : sp.ident s ∈ v
          · rw [if_pos hm] at h
            exact Or.inl h
          · rw [if_neg hm] at h
            have hk : ∀ (cs : List σ) (acc : List Nat × Nat × Option σ),
                (dfsKidsP sp rem' cs acc).2.2 = some r →
                acc.2.2 = some r ∨ (sp.goal r = true ∧
                  ∃ c ∈ cs, ∃ j, j ≤ rem' ∧ ReachN sp c j r) := by
              intro cs
              induction cs with
              | nil => intro acc h0; exact Or.inl h0
              | cons c cs' ihc =>
                  intro acc h0
                  rw [dfsKidsP_cons] at h0
                  rcases ihc _ h0 with h1 | ⟨hg, c', hc', j, hj, hr⟩
                  · rcases ih c acc.1 acc.2.1 acc.2.2 r h1 with h2 | ⟨hg, j, hj, hr⟩
                    · exact Or.inl h2
                    · exact Or.inr ⟨hg, c, List.mem_cons_self _ _, j, hj, hr⟩
                  · exact Or.inr ⟨hg, c', List.mem_cons_of_mem _ hc', j, hj, hr⟩
            rcases hk (sp.children s) (sp.ident s :: v, b, res) h with
              h1 | ⟨hg, c, hc', j, hj, hr⟩
            · exact Or.inl h1
            · exact Or.inr ⟨hg, j + 1, by omega, hr.prepend hc'⟩

end iddfs_solver

namespace iddfs_solver

theorem dfs_p_goal_entered {sp : Space σ} (root : σ)
    (hb : ∀ x, Reachable sp root x → sp.ident x < ULLONG_MAX)
    (rem : Nat) (s : σ) (v : List Nat) (b : Nat) (res : Option σ)
    (hg : sp.goal s = true) (hs : Reachable sp root s)
    (h1 : res = none → b = ULLONG_MAX)
    (_h2 : ∀ r0, res = some r0 → b = sp.ident r0) :
    (dfs_with_limit_p sp rem s v b res).2.2.isSome := by
  rw [dfs_p_goal _ _ _ _ _ hg]
  by_cases hlt : sp.ident s < b
  · rw [if_pos hlt]; rfl
  · rw [if_neg hlt]
    cases hres : res with
    | some r0 => rfl
    | none =>
        exfalso
        have hbU : b = ULLONG_MAX := h1 hres
        have := hb s hs
        omega

theorem dfs_p_complete {sp : Space σ} (root : σ)
    (hb : ∀ x, Reachable sp root x → sp.ident x < ULLONG_MAX) :
    ∀ (l : List σ) (s t : σ), Chain sp s l t → sp.goal t = true →
      Reachable sp root s →
      ∀ (rem : Nat) (v : List Nat) (b : Nat) (res : Option σ),
        l.length ≤ rem →
        (∀ x ∈ s :: l, sp.ident x ∉ v) →
        ((s :: l).map sp.ident).Nodup →
        (res = none → b = ULLONG_MAX) →
        (∀ r0, res = some r0 → b = sp.ident r0) →
        (dfs_with_limit_p sp rem s v b res).2.2.isSome := by
  intro l
  induction l with
  | nil =>
      intro s t hch hgt hs rem v b res _ _ _ h1 h2
      have hts : t = s := by cases hch; rfl
      exact dfs_p_goal_entered root hb rem s v b res (hts ▸ hgt) hs h1 h2
  | cons u l' ih =>
      intro s t hch hgt hs rem v b res hlen hnv hnd h1 h2
      cases hgval : sp.goal s with
      | true => exact dfs_p_goal_entered root hb rem s v b res hgval hs h1 h2
      | false =>
          cases hch with
          | cons hu hrest =>
              cases rem with
              | zero => simp at hlen
              | succ rem'' =>
                  rw [dfs_p_succ _ _ _ _ _ hgval]
                  have hm : sp.ident s ∉ v :=
                    hnv s (List.mem_cons_self _ _)
                  rw [if_neg hm]
                  obtain ⟨cs1, cs2, hsplit⟩ := List.append_of_mem hu
                  rw [hsplit, dfsKidsP_append, dfsKidsP_cons]
                  have hmapnd : sp.ident s ∉ ((u :: l').map sp.ident) ∧
                      ((u :: l').map sp.ident).Nodup := by
                    rw [List.map_cons] at hnd
                    exact List.nodup_cons.mp hnd
                  have hne_s : ∀ x ∈ u :: l', sp.ident x ≠ sp.ident s := by
                    intro x hx he
                    exact hmapnd.1 (he ▸ List.mem_map_of_mem sp.ident hx)
                  set acc1 := dfsKidsP sp rem'' cs1 (sp.ident s :: v, b, res)
                    with hacc1
                  have hrestore : acc1.1 = sp.ident s :: v := by
                    rw [hacc1, dfsKidsP_restore]
                  obtain ⟨hs1, hs2⟩ := by
                    have hk : ∀ (cs : List σ) (acc : List Nat × Nat × Option σ),
                        (acc.2.2 = none → acc.2.1 = ULLONG_MAX) →
                        (∀ r0, acc.2.2 = some r0 → acc.2.1 = sp.ident r0) →
                        (((dfsKidsP sp rem'' cs acc).2.2 = none →
                            (dfsKidsP sp rem'' cs acc).2.1 = ULLONG_MAX) ∧
                          (∀ r0, (dfsKidsP sp rem'' cs acc).2.2 = some r0 →
                            (dfsKidsP sp rem'' cs acc).2.1 = sp.ident r0)) := by
                      intro cs
                      induction cs with
                      | nil => intro acc ha1 ha2; exact ⟨ha1, ha2⟩
                      | cons c cs' ihc =>
                          intro acc ha1 ha2
                          rw [dfsKidsP_cons]
                          obtain ⟨hb1, hb2⟩ :=
                            dfs_p_sync rem'' c acc.1 acc.2.1 acc.2.2 ha1 ha2
                          exact ihc _ hb1 hb2
                    exact hk cs1 (sp.ident s :: v, b, res) h1 h2
                  refine dfsKidsP_stays_some rem'' cs2 _ ?_
                  cases hr1 : acc1.2.2 with
                  | some r1 =>
                      exact dfs_p_stays_some rem'' u acc1.1 acc1.2.1 r1
                  | none =>
                      have hbU : acc1.2.1 = ULLONG_MAX := hs1 hr1
                      rw [hbU, hrestore]
                      have hnv' : ∀ x ∈ u :: l',
                          sp.ident x ∉ sp.ident s :: v := by
                        intro x hx hmem
                        rcases List.mem_cons.mp hmem with he | hmem'
                        · exact hne_s x hx he
                        · exact hnv x (List.mem_cons_of_mem _ hx) hmem'
                      have hur : Reachable sp root u := by
                        obtain ⟨n, hn⟩ := hs
                        exact ⟨n + 1, ReachN.step hn hu⟩
                      exact ih u t hrest hgt hur rem'' (sp.ident s :: v)
                        ULLONG_MAX none (by simp at hlen; omega) hnv'
                        hmapnd.2 (fun _ => rfl) (fun r0 h => by cases h)

theorem dfs_p_pass_below {sp : Space σ} (root : σ) {m : Nat}
    (hm : ∀ k, (∃ t, ReachN sp root k t ∧ sp.goal t = true) → m ≤ k) :
    ∀ d, d < m →
      (dfs_with_limit_p sp d root [] ULLONG_MAX none).2.2 = none ∧
      (dfs_with_limit_p sp d root [] ULLONG_MAX none).2.1 = ULLONG_MAX := by
  intro d hd
  have hres : (dfs_with_limit_p sp d root [] ULLONG_MAX none).2.2 = none := by
    cases he : (dfs_with_limit_p sp d root [] ULLONG_MAX none).2.2 with
    | none => rfl
    | some g =>
        rcases dfs_p_sound d root [] ULLONG_MAX none g he with h | ⟨hg, j, hj, hr⟩
        · cases h
        · exact absurd (hm j ⟨g, hr, hg⟩) (by omega)
  refine ⟨hres, ?_⟩
  exact (dfs_p_sync d root [] ULLONG_MAX none (fun _ => rfl)
    (fun r0 h => by cases h)).1 hres

theorem dfs_p_pass_some_at {sp : Space σ} (root : σ)
    (hinj : InjOnReach sp root)
    (hb : ∀ x, Reachable sp root x → sp.ident x < ULLONG_MAX)
    {m : Nat} {t0 : σ}
    (ht0 : ReachN sp root m t0) (ht0g : sp.goal t0 = true)
    (hmin : ∀ j, ReachN sp root j t0 → m ≤ j) :
    ∃ g, (dfs_with_limit_p sp (max 1 m) root [] ULLONG_MAX none).2.2 = some g := by
  cases m with
  | zero =>
      cases ht0 with
      | refl =>
          refine Option.isSome_iff_exists.mp ?_
          exact dfs_p_goal_entered root hb _ root [] ULLONG_MAX none ht0g
            ⟨0, ReachN.refl⟩ (fun _ => rfl) (fun r0 h => by cases h)
  | succ m' =>
      obtain ⟨l, hch, hlen, hnd, _⟩ := minimal_goal_chain hinj ht0 hmin
      have hmax : max 1 (m' + 1) = m' + 1 := by omega
      rw [hmax]
      refine Option.isSome_iff_exists.mp ?_
      exact dfs_p_complete root hb l root t0 hch ht0g ⟨0, ReachN.refl⟩
        (m' + 1) [] ULLONG_MAX none (by omega) (by simp) hnd
        (fun _ => rfl) (fun r0 h => by cases h)

theorem solveParLoop_unroll {sp : Space σ} (root : σ) (D : Nat) (g : σ)
    (hnone : ∀ d, 1 ≤ d → d < D →
      (dfs_with_limit_p sp d root [] ULLONG_MAX none).2.2 = none ∧
      (dfs_with_limit_p sp d root [] ULLONG_MAX none).2.1 = ULLONG_MAX)
    (hD : (dfs_with_limit_p sp D root [] ULLONG_MAX none).2.2 = some g)
    (hD1 : 1 ≤ D) :
    solve_par sp root (D + 1) = some g := by
  have hstep : ∀ (k : Nat), ∀ (dl f : Nat), dl + k + 1 = D →
      solveParLoop sp root (k + (f + 2)) dl ULLONG_MAX none = some g := by
    intro k
    induction k with
    | zero =>
        intro dl f he
        have hdl : dl + 1 = D := by omega
        rw [Nat.zero_add, solveParLoop]
        rw [hdl, hD]
        rw [solveParLoop]
    | succ k ih =>
        intro dl f he
        have hfuel : k + 1 + (f + 2) = (k + (f + 2)) + 1 := by omega
        rw [hfuel, solveParLoop]
        obtain ⟨hp1, hp2⟩ := hnone (dl + 1) (by omega) (by omega)
        rw [hp1, hp2]
        exact ih (dl + 1) f (by omega)
  have := hstep (D - 1) 0 0 (by omega)
  have hf : D - 1 + (0 + 2) = D + 1 := by omega
  rw [hf] at this
  exact this

end iddfs_solver

namespace iddfs_solver

/-- C4 (amended): on any instance with collision-free identifiers and a
reachable goal, every depth-limited pass run with a `depth_limit` below the
final one (so the depth of the first reported goal is trivially monotone
over the `depth_limit` values 1, 2, … actually tried) reports nothing for
both variants, and at `depth_limit = max 1 m` — where `m` is the least
reachable-goal depth — sequential IDDFS unconditionally records a goal
lying at exactly depth `m` and its outer loop returns it. Parallel IDDFS
does the same only under the extra premise that every reachable state's
identifier is strictly below `ULLONG_MAX`: its recording guard
`current_id < best_goal_identifier` compares strictly against the initial
`best_goal_identifier = ULLONG_MAX`, so a goal carrying identifier exactly
`ULLONG_MAX` is never recorded (see the counterexample on `maxIdSpace`). -/
theorem solve_finds_min_depth_goal (sp : Space σ) (root : σ)
    (hinj : InjOnReach sp root)
    (hgoal : ∃ n t, ReachN sp root n t ∧ sp.goal t = true) :
    ∃ m,
      (∀ n t, ReachN sp root n t → sp.goal t = true → m ≤ n) ∧
      (∀ d, 1 ≤ d → d < max 1 m →
        dfs_with_limit_seq sp d root [] none = none ∧
        (dfs_with_limit_p sp d root [] ULLONG_MAX none).2.2 = none) ∧
      (∃ g, dfs_with_limit_seq sp (max 1 m) root [] none = some g ∧
        sp.goal g = true ∧ ReachN sp root m g ∧
        (∀ n, ReachN sp root n g → m ≤ n) ∧
        solve_seq sp root (max 1 m + 1) = some g) ∧
      ((∀ x, Reachable sp root x → sp.ident x < ULLONG_MAX) →
        ∃ g, (dfs_with_limit_p sp (max 1 m) root [] ULLONG_MAX none).2.2
          = some g ∧
        sp.goal g = true ∧ ReachN sp root m g ∧
        (∀ n, ReachN sp root n g → m ≤ n) ∧
        solve_par sp root (max 1 m + 1) = some g) := by
  have hex : ∃ n, ∃ t, ReachN sp root n t ∧ sp.goal t = true := by
    obtain ⟨n, t, ha, hb'⟩ := hgoal
    exact ⟨n, t, ha, hb'⟩
  obtain ⟨m, ⟨t0, ht0r, ht0g⟩, hm⟩ := nat_exists_least hex
  have hmk : ∀ k, (∃ t, ReachN sp root k t ∧ sp.goal t = true) → m ≤ k := hm
  have ht0min : ∀ j, ReachN sp root j t0 → m ≤ j :=
    fun j hj => hm j ⟨t0, hj, ht0g⟩
  refine ⟨m, fun n t hr hgt => hm n ⟨t, hr, hgt⟩, ?_, ?_, ?_⟩
  · intro d hd1 hd2
    have hdm : d < m := by omega
    exact ⟨dfs_seq_pass_none_below root hmk d hdm,
      (dfs_p_pass_below root hmk d hdm).1⟩
  · cases m with
    | zero =>
        cases ht0r with
        | refl =>
            refine ⟨root, ?_, ht0g, ReachN.refl, fun n _ => Nat.zero_le n, ?_⟩
            · exact dfs_seq_goal_none _ root [] ht0g
            · refine solveSeqLoop_unroll root 1 root ?_ ?_ (Nat.le_refl 1)
              · intro d h1 h2; omega
              · exact dfs_seq_goal_none 1 root [] ht0g
    | succ m' =>
        obtain ⟨g, hg⟩ := dfs_seq_pass_some_at root hinj ht0r ht0g ht0min
        have hmax : max 1 (m' + 1) = m' + 1 := by omega
        rcases dfs_seq_sound _ root [] none g hg with h | ⟨hgg, j, hj, hr⟩
        · cases h
        · have hjm : j = m' + 1 := by
            have := hm j ⟨g, hr, hgg⟩
            rw [hmax] at hj
            omega
          subst hjm
          refine ⟨g, hg, hgg, hr, fun n hn => hm n ⟨g, hn, hgg⟩, ?_⟩
          rw [hmax]
          refine solveSeqLoop_unroll root (m' + 1) g ?_ ?_ (by omega)
          · intro d h1 h2
            exact dfs_seq_pass_none_below root hmk d (by omega)
          · rw [hmax] at hg; exact hg
  · intro hb
    cases m with
    | zero =>
        cases ht0r with
        | refl =>
            have hroot : (dfs_with_limit_p sp 1 root [] ULLONG_MAX
                none).2.2 = some root := by
              rw [dfs_p_goal _ _ _ _ _ ht0g,
                if_pos (hb root ⟨0, ReachN.refl⟩)]
            refine ⟨root, hroot, ht0g, ReachN.refl, fun n _ => Nat.zero_le n, ?_⟩
            refine solveParLoop_unroll root 1 root ?_ hroot (Nat.le_refl 1)
            intro d h1 h2; omega
    | succ m' =>
        obtain ⟨g, hg⟩ := dfs_p_pass_some_at root hinj hb ht0r ht0g ht0min
        have hmax : max 1 (m' + 1) = m' + 1 := by omega
        rcases dfs_p_sound _ root [] ULLONG_MAX none g hg with h | ⟨hgg, j, hj, hr⟩
        · cases h
        · have hjm : j = m' + 1 := by
            have := hm j ⟨g, hr, hgg⟩
            rw [hmax] at hj
            omega
          subst hjm
          refine ⟨g, hg, hgg, hr, fun n hn => hm n ⟨g, hn, hgg⟩, ?_⟩
          rw [hmax]
          refine solveParLoop_unroll root (m' + 1) g ?_ ?_ (by omega)
          · intro d h1 h2
            exact dfs_p_pass_below root hmk d (by omega)
          · rw [hmax] at hg; exact hg

theorem line2_reach_le : ∀ (n x : Nat), ReachN line2 0 n x → x ≤ 2 := by
  intro n x h
  induction h with
  | refl => omega
  | @step n s t _ hc ih =>
      have hc' : t ∈ (if s = 0 then [1] else if s = 1 then [2] else []
          : List Nat) := hc
      by_cases h0 : s = 0
      · rw [if_pos h0] at hc'
        have : t = 1 := by simpa using hc'
        omega
      · rw [if_neg h0] at hc'
        by_cases h1 : s = 1
        · rw [if_pos h1] at hc'
          have : t = 2 := by simpa using hc'
          omega
        · rw [if_neg h1] at hc'
          cases hc'

/-- Witness for C4 on the line 0→1→2 with goal 2 at minimum depth 2: the
hypotheses are satisfiable and both solver variants return the goal. -/
theorem solve_finds_min_depth_goal_witness :
    (InjOnReach line2 0 ∧
      (∃ n t, ReachN line2 0 n t ∧ line2.goal t = true) ∧
      (∀ x, Reachable line2 0 x → line2.ident x < ULLONG_MAX)) ∧
    (∃ m,
      (∀ n t, ReachN line2 0 n t → line2.goal t = true → m ≤ n) ∧
      (∀ d, 1 ≤ d → d < max 1 m →
        dfs_with_limit_seq line2 d 0 [] none = none ∧
        (dfs_with_limit_p line2 d 0 [] ULLONG_MAX none).2.2 = none) ∧
      (∃ g, dfs_with_limit_seq line2 (max 1 m) 0 [] none = some g ∧
        line2.goal g = true ∧ ReachN line2 0 m g ∧
        (∀ n, ReachN line2 0 n g → m ≤ n) ∧
        solve_seq line2 0 (max 1 m + 1) = some g) ∧
      ((∀ x, Reachable line2 0 x → line2.ident x < ULLONG_MAX) →
        ∃ g, (dfs_with_limit_p line2 (max 1 m) 0 [] ULLONG_MAX none).2.2
          = some g ∧
        line2.goal g = true ∧ ReachN line2 0 m g ∧
        (∀ n, ReachN line2 0 n g → m ≤ n) ∧
        solve_par line2 0 (max 1 m + 1) = some g)) ∧
    solve_seq line2 0 3 = some 2 ∧ solve_par line2 0 3 = some 2 := by
  have hinj : InjOnReach line2 0 := fun s t _ _ h => h
  have h01 : (1 : Nat) ∈ line2.children 0 := by decide
  have h12 : (2 : Nat) ∈ line2.children 1 := by decide
  have hgoal : ∃ n t, ReachN line2 0 n t ∧ line2.goal t = true :=
    ⟨2, 2, ReachN.step (ReachN.step ReachN.refl h01) h12, rfl⟩
  have hb : ∀ x, Reachable line2 0 x → line2.ident x < ULLONG_MAX := by
    intro x hx
    obtain ⟨n, hn⟩ := hx
    have hx2 : x ≤ 2 := line2_reach_le n x hn
    show x < ULLONG_MAX
    have h64 : ULLONG_MAX = 18446744073709551615 := by
      simp [ULLONG_MAX]
    omega
  exact ⟨⟨hinj, hgoal, hb⟩,
    solve_finds_min_depth_goal line2 0 hinj hgoal, by decide, by decide⟩

/-- C4 counterexample: on `maxIdSpace`, whose only goal (state 1, at the
minimum reachable-goal depth 1) carries the identifier `ULLONG_MAX`,
sequential IDDFS returns that goal, but parallel IDDFS never does: its
recording guard `current_id < best_goal_identifier` is strict and
`best_goal_identifier` starts at `ULLONG_MAX`, so no pass ever records the
goal and `iddfs_solver::solve_par` loops forever without returning a goal
at the minimum depth — the claim fails for the parallel variant. -/
theorem solve_par_maxid_goal_never_returned :
    solve_seq maxIdSpace 0 3 = some 1 ∧
    maxIdSpace.goal 1 = true ∧
    maxIdSpace.ident 1 = ULLONG_MAX ∧
    ReachN maxIdSpace 0 1 1 ∧
    ¬ ∃ fuel g, solve_par maxIdSpace 0 fuel = some g := by
  have h01 : (1 : Nat) ∈ maxIdSpace.children 0 := by decide
  refine ⟨by decide, by decide, by decide,
    ReachN.step ReachN.refl h01, ?_⟩
  rintro ⟨fuel, g, h⟩
  have hng : ∀ s : Nat, maxIdSpace.goal s = true →
      ¬ maxIdSpace.ident s < ULLONG_MAX := by
    intro s hs
    have hs1 : s = 1 := by simpa [maxIdSpace] using hs
    subst hs1
    simp [maxIdSpace]
  have hnone : solve_par maxIdSpace 0 fuel = none :=
    solveParLoop_no_improve maxIdSpace 0 ULLONG_MAX hng fuel 0
  rw [hnone] at h
  cases h

end iddfs_solver

theorem foldplain_shift :
    ∀ (l : List Nat) (acc : Nat),
      l.foldl (fun a d => a * 4 + d) acc = acc * 4 ^ l.length + digitsVal l := by
  intro l
  induction l with
  | nil => intro acc; simp [digitsVal]
  | cons d l ih =>
      intro acc
      simp only [List.foldl_cons, List.length_cons]
      rw [ih (acc * 4 + d)]
      have hd : digitsVal (d :: l) = d * 4 ^ l.length + digitsVal l := by
        show (d :: l).foldl (fun a d => a * 4 + d) 0 = _
        simp only [List.foldl_cons]
        rw [ih (0 * 4 + d)]
        simp
      rw [hd, pow_succ]
      ring

theorem foldplain_lt :
    ∀ (l : List Nat) (acc : Nat), (∀ d ∈ l, d < 4) →
      l.foldl (fun a d => a * 4 + d) acc < (acc + 1) * 4 ^ l.length := by
  intro l
  induction l with
  | nil => intro acc _; simp
  | cons d l ih =>
      intro acc hd
      simp only [List.foldl_cons, List.length_cons]
      have h1 := ih (acc * 4 + d) (fun x hx => hd x (List.mem_cons_of_mem _ hx))
      have h2 : (acc * 4 + d + 1) * 4 ^ l.length ≤ (acc + 1) * 4 ^ (l.length + 1) := by
        rw [pow_succ]
        have hd4 : d < 4 := hd d (List.mem_cons_self _ _)
        have : acc * 4 + d + 1 ≤ (acc + 1) * 4 := by omega
        calc (acc * 4 + d + 1) * 4 ^ l.length
            ≤ (acc + 1) * 4 * 4 ^ l.length := Nat.mul_le_mul_right _ this
          _ = (acc + 1) * (4 ^ l.length * 4) := by ring
      exact Nat.lt_of_lt_of_le h1 h2

theorem digitsVal_lt (l : List Nat) (hd : ∀ d ∈ l, d < 4) :
    digitsVal l < 4 ^ l.length := by
  have := foldplain_lt l 0 hd
  simpa [digitsVal] using this

theorem digitsVal_inj :
    ∀ (l1 l2 : List Nat), l1.length = l2.length →
      (∀ d ∈ l1, d < 4) → (∀ d ∈ l2, d < 4) →
      digitsVal l1 = digitsVal l2 → l1 = l2 := by
  intro l1
  induction l1 with
  | nil =>
      intro l2 hlen _ _ _
      cases l2 with
      | nil => rfl
      | cons d t => simp at hlen
  | cons d1 t1 ih =>
      intro l2 hlen hb1 hb2 hv
      cases l2 with
      | nil => simp at hlen
      | cons d2 t2 =>
          have hlen' : t1.length = t2.length := by simpa using hlen
          have hv1 : digitsVal (d1 :: t1) = d1 * 4 ^ t1.length + digitsVal t1 := by
            show (d1 :: t1).foldl (fun a d => a * 4 + d) 0 = _
            simp only [List.foldl_cons]
            rw [foldplain_shift t1 (0 * 4 + d1)]
            simp
          have hv2 : digitsVal (d2 :: t2) = d2 * 4 ^ t2.length + digitsVal t2 := by
            show (d2 :: t2).foldl (fun a d => a * 4 + d) 0 = _
            simp only [List.foldl_cons]
            rw [foldplain_shift t2 (0 * 4 + d2)]
            simp
          rw [hv1, hv2, ← hlen'] at hv
          have hlt1 : digitsVal t1 < 4 ^ t1.length :=
            digitsVal_lt t1 (fun x hx => hb1 x (List.mem_cons_of_mem _ hx))
          have hlt2 : digitsVal t2 < 4 ^ t1.length := by
            rw [hlen']
            exact digitsVal_lt t2 (fun x hx => hb2 x (List.mem_cons_of_mem _ hx))
          have hdd : d1 = d2 := by
            by_contra hne
            rcases Nat.lt_or_ge d1 d2 with hlt | hge
            · have : d1 * 4 ^ t1.length + digitsVal t1 <
                  d2 * 4 ^ t1.length + digitsVal t2 := by
                calc d1 * 4 ^ t1.length + digitsVal t1
                    < d1 * 4 ^ t1.length + 4 ^ t1.length :=
                      Nat.add_lt_add_left hlt1 _
                  _ = (d1 + 1) * 4 ^ t1.length := by ring
                  _ ≤ d2 * 4 ^ t1.length := Nat.mul_le_mul_right _ (by omega)
                  _ ≤ d2 * 4 ^ t1.length + digitsVal t2 := Nat.le_add_right _ _
              omega
            · have hgt : d2 < d1 := by omega
              have : d2 * 4 ^ t1.length + digitsVal t2 <
                  d1 * 4 ^ t1.length + digitsVal t1 := by
                calc d2 * 4 ^ t1.length + digitsVal t2
                    < d2 * 4 ^ t1.length + 4 ^ t1.length :=
                      Nat.add_lt_add_left hlt2 _
                  _ = (d2 + 1) * 4 ^ t1.length := by ring
                  _ ≤ d1 * 4 ^ t1.length := Nat.mul_le_mul_right _ (by omega)
                  _ ≤ d1 * 4 ^ t1.length + digitsVal t1 := Nat.le_add_right _ _
              omega
          subst hdd
          have hvt : digitsVal t1 = digitsVal t2 := by omega
          rw [ih t2 hlen' (fun x hx => hb1 x (List.mem_cons_of_mem _ hx))
            (fun x hx => hb2 x (List.mem_cons_of_mem _ hx)) hvt]

theorem foldmod_eq :
    ∀ (l : List Nat) (acc : Nat),
      l.foldl (fun a d => (a * 4 % 2 ^ 64 + d) % 2 ^ 64) (acc % 2 ^ 64) =
        (l.foldl (fun a d => a * 4 + d) acc) % 2 ^ 64 := by
  intro l
  induction l with
  | nil => intro acc; rfl
  | cons d l ih =>
      intro acc
      simp only [List.foldl_cons]
      have h1 : (acc % 2 ^ 64 * 4 % 2 ^ 64 + d) % 2 ^ 64 =
          (acc * 4 + d) % 2 ^ 64 := by
        rw [Nat.mod_mul_mod, Nat.mod_add_mod]
      rw [h1]
      exact ih (acc * 4 + d)

theorem map_eq_pointwise {α β : Type} (f g : α → β) :
    ∀ (l : List α), l.map f = l.map g → ∀ x ∈ l, f x = g x := by
  intro l
  induction l with
  | nil => intro _ x hx; cases hx
  | cons a l ih =>
      intro h x hx
      simp only [List.map_cons, List.cons.injEq] at h
      rcases List.mem_cons.mp hx with rfl | hx'
      · exact h.1
      · exact ih h.2 x hx'

theorem lookup_toAssign :
    ∀ (bs : List Bool) (k i : Nat),
      sat_state.lookupA (toAssign k bs) i =
        if i < k then none else bs.get? (i - k) := by
  intro bs
  induction bs with
  | nil =>
      intro k i
      simp only [toAssign, sat_state.lookupA, List.find?_nil, Option.map_none']
      by_cases h : i < k
      · rw [if_pos h]
      · rw [if_neg h]; simp
  | cons b bs ih =>
      intro k i
      show sat_state.lookupA ((k, b) :: toAssign (k + 1) bs) i = _
      by_cases hk : k = i
      · subst hk
        have : sat_state.lookupA ((k, b) :: toAssign (k + 1) bs) k = some b := by
          simp [sat_state.lookupA, List.find?_cons_of_pos]
        rw [this, if_neg (by omega)]
        simp
      · have hpred : (fun (e : Nat × Bool) => e.1 == i) (k, b) = false := by
          simp [hk]
        have hstep : sat_state.lookupA ((k, b) :: toAssign (k + 1) bs) i =
            sat_state.lookupA (toAssign (k + 1) bs) i := by
          simp only [sat_state.lookupA]
          rw [List.find?_cons_of_neg _ (by simp [hpred])]
        rw [hstep, ih (k + 1) i]
        by_cases h1 : i < k
        · rw [if_pos (by omega), if_pos h1]
        · have hgt : k < i := by omega
          rw [if_neg (by omega), if_neg (by omega)]
          have : i - k = (i - (k + 1)) + 1 := by omega
          rw [this, List.get?_cons_succ]

theorem find?_range'_threshold (p : Nat → Bool) (K : Nat) :
    ∀ (cnt a : Nat), a ≤ K → (∀ i, a ≤ i → (p i = true ↔ K ≤ i)) →
      List.find? p (List.range' a cnt) =
        if a + cnt ≤ K then none else some K := by
  intro cnt
  induction cnt with
  | zero =>
      intro a ha _
      rw [if_pos (by omega)]
      rfl
  | succ cnt ih =>
      intro a ha hp
      rw [List.range'_succ]
      by_cases haK : a = K
      · have hpa : p a = true := (hp a (Nat.le_refl a)).mpr (by omega)
        rw [List.find?_cons_of_pos _ hpa, haK]
        rw [if_neg (by omega)]
      · have halt : a < K := by omega
        have hpa : p a ≠ true := by
          intro h
          have := (hp a (Nat.le_refl a)).mp h
          omega
        rw [List.find?_cons_of_neg _ hpa]
        rw [ih (a + 1) (by omega) (fun i hi => hp i (by omega))]
        by_cases hc : a + (cnt + 1) ≤ K
        · rw [if_pos (by omega), if_pos hc]
        · rw [if_neg (by omega), if_neg hc]

theorem nextVar_toAssign (p : SatProblem) (bs : List Bool) :
    sat_state.nextVar p (toAssign 1 bs) =
      if bs.length < p.num_variables then some (bs.length + 1) else none := by
  rw [sat_state.nextVar]
  have hp : ∀ i, 1 ≤ i →
      (((sat_state.lookupA (toAssign 1 bs) i).isNone = true) ↔
        bs.length + 1 ≤ i) := by
    intro i hi
    rw [lookup_toAssign, if_neg (by omega)]
    rw [Option.isNone_iff_eq_none, List.get?_eq_none]
    omega
  rw [find?_range'_threshold _ (bs.length + 1) p.num_variables 1 (by omega) hp]
  by_cases hc : bs.length < p.num_variables
  · rw [if_neg (by omega), if_pos hc]
  · rw [if_pos (by omega), if_neg hc]

theorem toAssign_snoc :
    ∀ (bs : List Bool) (k : Nat) (v : Bool),
      toAssign k (bs ++ [v]) = toAssign k bs ++ [(k + bs.length, v)] := by
  intro bs
  induction bs with
  | nil => intro k v; simp [toAssign]
  | cons b bs ih =>
      intro k v
      show (k, b) :: toAssign (k + 1) (bs ++ [v]) = _
      rw [ih (k + 1) v]
      have : k + 1 + bs.length = k + (bs.length + 1) := by omega
      simp [toAssign, this]

theorem sat_reach_shape (p : SatProblem) :
    ∀ (n : Nat) (a : List (Nat × Bool)), ReachN (satSpace p) [] n a →
      ∃ bs : List Bool, a = toAssign 1 bs ∧ bs.length = n ∧
        bs.length ≤ p.num_variables := by
  intro n a h
  induction h with
  | refl => exact ⟨[], rfl, rfl, Nat.zero_le _⟩
  | @step n b a hb hc ih =>
      obtain ⟨bs, rfl, hlen, _⟩ := ih
      have hc' : a ∈ sat_state.get_descendents p (toAssign 1 bs) := hc
      rw [sat_state.get_descendents] at hc'
      by_cases hg : sat_state.is_goal p (toAssign 1 bs) = true
      · rw [if_pos hg] at hc'; cases hc'
      · rw [if_neg hg, nextVar_toAssign] at hc'
        by_cases hlt : bs.length < p.num_variables
        · rw [if_pos hlt] at hc'
          have hcomm : 1 + bs.length = bs.length + 1 := by omega
          rcases List.mem_cons.mp hc' with rfl | hc''
          · refine ⟨bs ++ [true], ?_, by simp [hlen], by simp; omega⟩
            rw [toAssign_snoc, hcomm]
          · rcases List.mem_cons.mp hc'' with rfl | hc'''
            · refine ⟨bs ++ [false], ?_, by simp [hlen], by simp; omega⟩
              rw [toAssign_snoc, hcomm]
            · cases hc'''
        · rw [if_neg hlt] at hc'
          cases hc'

theorem digitOf_lt (a : List (Nat × Bool)) (i : Nat) :
    sat_state.digitOf a i < 4 := by
  rw [sat_state.digitOf]
  cases sat_state.lookupA a i with
  | none => simp
  | some v => cases v <;> simp

theorem digitOf_toAssign (bs : List Bool) (i : Nat) (hi : 1 ≤ i) :
    sat_state.digitOf (toAssign 1 bs) i =
      match bs.get? (i - 1) with
      | none => 0
      | some v => if v then 2 else 1 := by
  rw [sat_state.digitOf, lookup_toAssign, if_neg (by omega)]

theorem sat_identifier_eq (p : SatProblem) (a : List (Nat × Bool)) :
    sat_state.get_identifier p a =
      digitsVal ((List.range' 1 p.num_variables).map (sat_state.digitOf a))
        % 2 ^ 64 := by
  rw [sat_state.get_identifier]
  rw [← List.foldl_map (sat_state.digitOf a)
    (fun acc d => (acc * 4 % 2 ^ 64 + d) % 2 ^ 64)]
  exact foldmod_eq _ 0

theorem sat_identifier_no_wrap (p : SatProblem) (a : List (Nat × Bool))
    (hn : p.num_variables ≤ 32) :
    sat_state.get_identifier p a =
      digitsVal ((List.range' 1 p.num_variables).map (sat_state.digitOf a)) := by
  rw [sat_identifier_eq]
  apply Nat.mod_eq_of_lt
  have hlt := digitsVal_lt
    ((List.range' 1 p.num_variables).map (sat_state.digitOf a))
    (by
      intro d hd
      obtain ⟨i, _, rfl⟩ := List.mem_map.mp hd
      exact digitOf_lt a i)
  have hlen : ((List.range' 1 p.num_variables).map
      (sat_state.digitOf a)).length = p.num_variables := by simp
  rw [hlen] at hlt
  calc digitsVal ((List.range' 1 p.num_variables).map (sat_state.digitOf a))
      < 4 ^ p.num_variables := hlt
    _ ≤ 4 ^ 32 := Nat.pow_le_pow_right (by omega) hn
    _ = 2 ^ 64 := by norm_num

/-- C9 (amended): for up to 32 variables, `sat_state::get_identifier` is
injective on the assignments reachable from the empty root — semantically
identical states get equal identifiers and distinct reachable states get
distinct identifiers.  (At 33 or more variables the 2-bit-per-variable
encoding overflows the 64-bit accumulator and reachable states collide.) -/
theorem sat_identifier_collision_free_le32 (p : SatProblem)
    (hn : p.num_variables ≤ 32) :
    (∀ a b : List (Nat × Bool), a = b →
        sat_state.get_identifier p a = sat_state.get_identifier p b) ∧
    (∀ a b, Reachable (satSpace p) [] a → Reachable (satSpace p) [] b →
      sat_state.get_identifier p a = sat_state.get_identifier p b → a = b) := by
  refine ⟨fun a b h => by rw [h], ?_⟩
  rintro a b ⟨na, hra⟩ ⟨nb, hrb⟩ hid
  obtain ⟨bs, rfl, hla, hba⟩ := sat_reach_shape p na a hra
  obtain ⟨bs2, rfl, hlb, hbb⟩ := sat_reach_shape p nb b hrb
  suffices h : bs = bs2 by rw [h]
  rw [sat_identifier_no_wrap p _ hn, sat_identifier_no_wrap p _ hn] at hid
  have hD := digitsVal_inj _ _ (by simp)
    (by
      intro d hd
      obtain ⟨i, _, rfl⟩ := List.mem_map.mp hd
      exact digitOf_lt _ i)
    (by
      intro d hd
      obtain ⟨i, _, rfl⟩ := List.mem_map.mp hd
      exact digitOf_lt _ i)
    hid
  have hpw := map_eq_pointwise _ _ _ hD
  have hlen : bs.length = bs2.length := by
    by_contra hne
    rcases Nat.lt_or_ge bs.length bs2.length with hlt | hge
    · have hi : bs.length + 1 ∈ List.range' 1 p.num_variables := by
        rw [List.mem_range'_1]
        omega
      have hthis := hpw _ hi
      rw [digitOf_toAssign bs _ (by omega),
        digitOf_toAssign bs2 _ (by omega)] at hthis
      have hget1 : bs.get? (bs.length + 1 - 1) = none := by
        rw [List.get?_eq_none]; omega
      obtain ⟨v, hv⟩ : ∃ v, bs2.get? (bs.length + 1 - 1) = some v := by
        cases hg : bs2.get? (bs.length + 1 - 1) with
        | some v => exact ⟨v, rfl⟩
        | none =>
            rw [List.get?_eq_none] at hg
            omega
      rw [hget1, hv] at hthis
      cases v <;> simp at hthis
    · have hlt2 : bs2.length < bs.length := by omega
      have hi : bs2.length + 1 ∈ List.range' 1 p.num_variables := by
        rw [List.mem_range'_1]
        omega
      have hthis := hpw _ hi
      rw [digitOf_toAssign bs _ (by omega),
        digitOf_toAssign bs2 _ (by omega)] at hthis
      have hget1 : bs2.get? (bs2.length + 1 - 1) = none := by
        rw [List.get?_eq_none]; omega
      obtain ⟨v, hv⟩ : ∃ v, bs.get? (bs2.length + 1 - 1) = some v := by
        cases hg : bs.get? (bs2.length + 1 - 1) with
        | some v => exact ⟨v, rfl⟩
        | none =>
            rw [List.get?_eq_none] at hg
            omega
      rw [hget1, hv] at hthis
      cases v <;> simp at hthis
  refine List.ext_get? ?_
  intro j
  by_cases hj : j < bs.length
  · have hi : j + 1 ∈ List.range' 1 p.num_variables := by
      rw [List.mem_range'_1]
      omega
    have hthis := hpw _ hi
    rw [digitOf_toAssign bs _ (by omega),
      digitOf_toAssign bs2 _ (by omega)] at hthis
    have hsimp : j + 1 - 1 = j := by omega
    rw [hsimp] at hthis
    cases hg1 : bs.get? j with
    | none =>
        rw [List.get?_eq_none] at hg1
        omega
    | some v1 =>
        cases hg2 : bs2.get? j with
        | none =>
            rw [List.get?_eq_none] at hg2
            omega
        | some v2 =>
            rw [hg1, hg2] at hthis
            have hveq : v1 = v2 := by
              cases v1 <;> cases v2 <;> simp at hthis <;> rfl
            rw [hveq]
  · rw [List.get?_eq_none.mpr (by omega), List.get?_eq_none.mpr (by omega)]

/-- C9 counterexample: with 33 variables the identifier encoding shifts the
first variable's 2-bit digit past bit 63, so the two distinct children of
the root — the assignments `x1 := true` and `x1 := false` — receive the
same identifier (both 0). -/
theorem sat_identifier_collision_at_33 :
    sat_state.get_identifier satP33 [(1, true)] =
      sat_state.get_identifier satP33 [(1, false)] ∧
    ([(1, true)] : List (Nat × Bool)) ≠ [(1, false)] ∧
    [(1, true)] ∈ sat_state.get_descendents satP33 [] ∧
    [(1, false)] ∈ sat_state.get_descendents satP33 [] := by
  refine ⟨by decide, by decide, by decide, by decide⟩

/-- Witness for C9 on the one-variable instance `satP1`: the hypothesis is
satisfiable, both halves of the theorem apply, and the two depth-1 states
indeed have the distinct identifiers 2 and 1. -/
theorem sat_identifier_collision_free_le32_witness :
    satP1.num_variables ≤ 32 ∧
    sat_state.get_identifier satP1 [(1, true)] =
      sat_state.get_identifier satP1 [(1, true)] ∧
    ([(1, true)] : List (Nat × Bool)) = [(1, true)] ∧
    sat_state.get_identifier satP1 [(1, true)] ≠
      sat_state.get_identifier satP1 [(1, false)] := by
  have hn : satP1.num_variables ≤ 32 := by decide
  have hreach : Reachable (satSpace satP1) [] [(1, true)] := by
    refine ⟨1, ReachN.step ReachN.refl ?_⟩
    show [(1, true)] ∈ sat_state.get_descendents satP1 []
    decide
  obtain ⟨hcongr, hinj⟩ := sat_identifier_collision_free_le32 satP1 hn
  exact ⟨hn, hcongr [(1, true)] [(1, true)] rfl,
    hinj [(1, true)] [(1, true)] hreach hreach
      (hcongr [(1, true)] [(1, true)] rfl),
    by decide⟩
